import Mathlib

/-!
Formal model of the SparseMemory repository (`src/memory.c`, `src/screen.c`,
`src/memory.h`, `src/screen.h`).

Machine integers (`word_t` and `addr_t`, both `uint32_t`) are modelled as `Nat`
with explicit reduction modulo `2 ^ 32` wherever the C arithmetic can overflow.
C functions that can fail to terminate (the open-addressing probe loop of
`ht_find` can cycle forever in a full table) or that hit undefined behaviour
(dereferencing a `NULL` page pointer) are modelled as `Option`-valued
functions, `none` standing for divergence or abnormal termination.
Listener callbacks are opaque function pointers in C; here an invocation is
recorded as an event carrying the listener's position in its list together
with the arguments the callback receives.
-/

namespace SparseMemory

/-- The number of values of `uint32_t` (`word_t` / `addr_t` in `src/memory.h`). -/
def U32 : Nat := 2 ^ 32

/-- `src/memory.c`, `hash`: avalanche mixer applied to a page base address.
The two multiplications overflow 32-bit arithmetic, hence the `% U32`;
shifts and xors of 32-bit values cannot overflow. -/
def hash (x : Nat) : Nat :=
  let x1 := (((x >>> 16) ^^^ x) * 0x45d9f3b) % U32
  let x2 := (((x1 >>> 16) ^^^ x1) * 0x45d9f3b) % U32
  (x2 >>> 16) ^^^ x2

/-- `src/memory.c`, `struct ram_page_t`. `data = none` models the `NULL`
word-buffer pointer of an empty hash-table slot; `data = some d` models an
allocated page, `d` giving the word stored at each in-page offset. -/
structure ram_page_t where
  base_addr : Nat
  data : Option (Nat → Nat)

/-- `src/memory.c`, `struct ram_read_listener_t` (the callback pointer is
modelled by the listener's position in the list, the range fields exactly). -/
structure ram_read_listener_t where
  addr_low : Nat
  addr_high : Nat
deriving DecidableEq

/-- `src/memory.c`, `struct ram_write_listener_t`. -/
structure ram_write_listener_t where
  addr_low : Nat
  addr_high : Nat
deriving DecidableEq

/-- `src/memory.c`, `struct ram_t`. The bucket array is modelled as a total
function from slot index to slot contents; only indices below `bucket_count`
are ever accessed. The two listener linked lists are modelled as Lean lists
in the same head-to-tail order. -/
structure ram_t where
  buckets : Nat → ram_page_t
  bucket_count : Nat
  page_count : Nat
  read_listener : List ram_read_listener_t
  write_listener : List ram_write_listener_t
  page_size : Nat

/-- An empty hash-table slot as produced by `calloc`: base address 0 and a
`NULL` data pointer. -/
def empty_bucket : ram_page_t := ⟨0, none⟩

/-- Overwrite slot `i` of a bucket array (a C array store). -/
def setBucket (buckets : Nat → ram_page_t) (i : Nat) (p : ram_page_t) :
    Nat → ram_page_t :=
  fun j => if j = i then p else buckets j

/-- One probe step of `ht_find`: `index += 1; if (index >= bucket_count) index = 0;`. -/
def probe_step (bucket_count index : Nat) : Nat :=
  if index + 1 ≥ bucket_count then 0 else index + 1

/-- The probe loop of `src/memory.c`, `ht_find`, with explicit fuel.
`some i` means the C loop returns index `i`; `none` means the loop has not
returned within `fuel` iterations.  The loop first tests
`buckets[index].data != NULL` (exit with the empty slot), then
`buckets[index].base_addr == base_addr` (exit with the match), else advances
with wrap-around. -/
def ht_find_loop (buckets : Nat → ram_page_t) (bucket_count base_addr : Nat) :
    Nat → Nat → Option Nat
  | 0, _ => none
  | fuel + 1, index =>
    match (buckets index).data with
    | none => some index
    | some _ =>
      if (buckets index).base_addr = base_addr then some index
      else ht_find_loop buckets bucket_count base_addr fuel
        (probe_step bucket_count index)

/-- `src/memory.c`, `ht_find`.  The initial index is
`hash(base_addr) & (bucket_count - 1)`.  A full sweep of `bucket_count`
probe steps visits every slot once, so `bucket_count` fuel suffices whenever
the C loop terminates at all; `none` therefore models the C loop running
forever (a full table that does not contain `base_addr`). -/
def ht_find (buckets : Nat → ram_page_t) (bucket_count base_addr : Nat) :
    Option Nat :=
  ht_find_loop buckets bucket_count base_addr bucket_count
    (hash base_addr &&& (bucket_count - 1))

/-- `src/memory.c`, `init_ram_page`: a freshly created page records the base
address and a zero-filled (`calloc`) word buffer. -/
def init_ram_page (base_addr : Nat) : ram_page_t :=
  ⟨base_addr, some (fun _ => 0)⟩

/-- `INITIAL_RAM_HT_SIZE` in `src/memory.c`. -/
def INITIAL_RAM_HT_SIZE : Nat := 64

/-- `src/memory.c`, `ram_create`, parameterized by the page size in words
(`get_os_memory_page() / sizeof(word_t)`, host dependent, always a power of
two).  The table starts with 64 `calloc`-zeroed slots and the page with base
address 0 is pre-created at the slot `ht_find` designates for key 0. -/
def ram_create (page_size : Nat) : ram_t :=
  let buckets0 : Nat → ram_page_t := fun _ => empty_bucket
  let idx := (ht_find buckets0 INITIAL_RAM_HT_SIZE 0).getD 0
  { buckets := setBucket buckets0 idx (init_ram_page 0)
    bucket_count := INITIAL_RAM_HT_SIZE
    page_count := 1
    read_listener := []
    write_listener := []
    page_size := page_size }

/-- The 32-bit value of `~(page_size - 1)` used by `get_ram_page` to clear
the low bits of an address. -/
def NOT_MASK (page_size : Nat) : Nat := (U32 - 1) ^^^ (page_size - 1)

/-- `addr & ~(ram->page_size - 1)`: the base address of the page containing
`addr`. -/
def page_base (page_size addr : Nat) : Nat := addr &&& NOT_MASK page_size

/-- The rehash insertion of `get_ram_page`'s grow block:
`new_pages[ht_find(new_pages, bucket_count, page->base_addr)] = *page`.
If `ht_find` diverges (impossible for a half-empty table) the table is
returned unchanged. -/
def rehash_insert (buckets : Nat → ram_page_t) (bucket_count : Nat)
    (p : ram_page_t) : Nat → ram_page_t :=
  match ht_find buckets bucket_count p.base_addr with
  | some i => setBucket buckets i p
  | none => buckets

/-- The rehash loop of `get_ram_page`'s grow block: reinsert the occupied
slots `i, i+1, ..., i+count-1` of the old bucket array into the new one, in
ascending order. -/
def rehash_loop (old : Nat → ram_page_t) (newC : Nat) :
    Nat → Nat → (Nat → ram_page_t) → Nat → ram_page_t
  | _, 0, acc => acc
  | i, count + 1, acc =>
    let acc' := match (old i).data with
      | none => acc
      | some _ => rehash_insert acc newC (old i)
    rehash_loop old newC (i + 1) count acc'

/-- The grow block of `src/memory.c`, `get_ram_page` (lines 245-266):
double the bucket count, `calloc` a new slot array, reinsert every occupied
old slot, free the old array. -/
def ram_grow (ram : ram_t) : ram_t :=
  let newC := ram.bucket_count * 2
  { ram with
    bucket_count := newC
    buckets := rehash_loop ram.buckets newC 0 ram.bucket_count
      (fun _ => empty_bucket) }

/-- `src/memory.c`, `get_ram_page`.  Returns the updated RAM together with
the index of the slot holding (after a possible creation) the page of
`addr`; `none` models the `ht_find` probe loop never terminating.  Exactly
as in the C code: the index is computed by `ht_find` *before* the grow
check, the slot is taken to be a hit whenever its `base_addr` field matches
(even for an empty slot), and on the insertion path the grow (when
`page_count == bucket_count`) happens first but the index is *not*
recomputed afterwards. -/
def get_ram_page (ram : ram_t) (addr : Nat) : Option (ram_t × Nat) :=
  let base_addr := page_base ram.page_size addr
  match ht_find ram.buckets ram.bucket_count base_addr with
  | none => none
  | some index =>
    if (ram.buckets index).base_addr = base_addr then
      some (ram, index)
    else
      let ram1 := if ram.page_count = ram.bucket_count then ram_grow ram else ram
      some ({ ram1 with
                buckets := setBucket ram1.buckets index (init_ram_page base_addr)
                page_count := ram1.page_count + 1 },
            index)

/-- A recorded listener-callback invocation: the listener's position in its
list together with the argument(s) the C code passes to the callback. -/
inductive mem_event where
  | readEv (listener_idx : Nat) (addr : Nat)
  | writeEv (listener_idx : Nat) (addr : Nat) (value : Nat)
deriving DecidableEq

/-- `src/memory.c`, `handle_read_listeners`: walk the read-listener list in
order and invoke the callback of every listener whose inclusive range
contains `addr`.  `i` is the list position of the first listener in `ls`. -/
def handle_read_loop (ls : List ram_read_listener_t) (i addr : Nat) :
    List mem_event :=
  match ls with
  | [] => []
  | l :: rest =>
    (if addr ≥ l.addr_low ∧ addr ≤ l.addr_high
     then [mem_event.readEv i addr] else [])
      ++ handle_read_loop rest (i + 1) addr

/-- `src/memory.c`, `handle_write_listeners`. -/
def handle_write_loop (ls : List ram_write_listener_t) (i addr value : Nat) :
    List mem_event :=
  match ls with
  | [] => []
  | l :: rest =>
    (if addr ≥ l.addr_low ∧ addr ≤ l.addr_high
     then [mem_event.writeEv i addr value] else [])
      ++ handle_write_loop rest (i + 1) addr value

/-- `src/memory.c`, `ram_get`: page lookup, read listeners, then the word at
`addr - page->base_addr`.  `none` models divergence of the lookup or the
undefined `NULL`-data dereference. -/
def ram_get (ram : ram_t) (addr : Nat) :
    Option (Nat × ram_t × List mem_event) :=
  match get_ram_page ram addr with
  | none => none
  | some (ram', index) =>
    match (ram'.buckets index).data with
    | none => none
    | some d =>
      some (d (addr - (ram'.buckets index).base_addr), ram',
            handle_read_loop ram'.read_listener 0 addr)

/-- `src/memory.c`, `ram_set`: page lookup, store the word, then write
listeners. -/
def ram_set (ram : ram_t) (addr value : Nat) :
    Option (ram_t × List mem_event) :=
  match get_ram_page ram addr with
  | none => none
  | some (ram', index) =>
    match (ram'.buckets index).data with
    | none => none
    | some d =>
      let off := addr - (ram'.buckets index).base_addr
      let d' := fun o => if o = off then value else d o
      some ({ ram' with
                buckets := setBucket ram'.buckets index
                  { ram'.buckets index with data := some d' } },
            handle_write_loop ram'.write_listener 0 addr value)

/-- `src/memory.c`, `ram_get_set`: page lookup, read listeners, read the old
word, store the new word, write listeners, return the old word. -/
def ram_get_set (ram : ram_t) (addr value : Nat) :
    Option (Nat × ram_t × List mem_event) :=
  match get_ram_page ram addr with
  | none => none
  | some (ram', index) =>
    match (ram'.buckets index).data with
    | none => none
    | some d =>
      let off := addr - (ram'.buckets index).base_addr
      let old_value := d off
      let d' := fun o => if o = off then value else d o
      some (old_value,
            { ram' with
                buckets := setBucket ram'.buckets index
                  { ram'.buckets index with data := some d' } },
            handle_read_loop ram'.read_listener 0 addr
              ++ handle_write_loop ram'.write_listener 0 addr value)

/-- `src/memory.c`, `ram_install_read_listener`: append to the tail of the
read-listener list. -/
def ram_install_read_listener (ram : ram_t) (addr_low addr_high : Nat) :
    ram_t :=
  { ram with read_listener := ram.read_listener ++ [⟨addr_low, addr_high⟩] }

/-- `src/memory.c`, `ram_install_write_listener`: append to the tail of the
write-listener list. -/
def ram_install_write_listener (ram : ram_t) (addr_low addr_high : Nat) :
    ram_t :=
  { ram with write_listener := ram.write_listener ++ [⟨addr_low, addr_high⟩] }

/-- The body of the `ram_init` loop, with explicit fuel (one unit per
chunk); `none` models divergence of `get_ram_page`.  Each iteration copies
`min(data_len - base_address, page_size)` words of `data` starting at
`data + base_address` into the page of `base_address`, then advances by
`page_size`. -/
def ram_init_loop (data : List Nat) :
    Nat → ram_t → Nat → Option ram_t
  | 0, _, _ => none
  | fuel + 1, ram, base_address =>
    if base_address < data.length then
      match get_ram_page ram base_address with
      | none => none
      | some (ram', index) =>
        match (ram'.buckets index).data with
        | none => none
        | some d =>
          let words_to_copy :=
            if data.length - base_address < ram'.page_size
            then data.length - base_address else ram'.page_size
          let d' := fun o =>
            if o < words_to_copy then data.getD (base_address + o) 0 else d o
          ram_init_loop data fuel
            { ram' with
                buckets := setBucket ram'.buckets index
                  { ram'.buckets index with data := some d' } }
            (base_address + ram'.page_size)
    else some ram

/-- `src/memory.c`, `ram_init`.  `data.length + 1` units of fuel are enough
for every terminating run (each iteration advances `base_address` by at
least one when `page_size ≥ 1`). -/
def ram_init (ram : ram_t) (data : List Nat) : Option ram_t :=
  ram_init_loop data (data.length + 1) ram 0

/-- Whether slot `i` of `R` holds an allocated page (`data != NULL`). -/
def occB (R : ram_t) (i : Nat) : Bool := ((R.buckets i).data).isSome

/-- The number of occupied slots of the bucket array. -/
def occCount (R : ram_t) : Nat :=
  ((Finset.range R.bucket_count).filter (fun i => occB R i = true)).card

/-- The slot (if any) holding the page with base address `pb`: first index
`i < bucket_count` with an allocated page whose `base_addr` is `pb`. -/
def slotOf (R : ram_t) (pb : Nat) : Option Nat :=
  (List.range R.bucket_count).find?
    (fun i => occB R i && ((R.buckets i).base_addr == pb))

/-- The abstract word stored at address `a`: the corresponding word of the
page containing `a` if that page is allocated, else 0 (an address of an
absent page reads as zero once the page is created zero-filled). -/
def ramVal (R : ram_t) (a : Nat) : Nat :=
  match slotOf R (page_base R.page_size a) with
  | none => 0
  | some i =>
    match (R.buckets i).data with
    | none => 0
    | some d => d (a - (R.buckets i).base_addr)

/-- The page of base address `pb` is allocated in `R`. -/
def pagePresent (R : ram_t) (pb : Nat) : Prop :=
  ∃ i, i < R.bucket_count ∧ occB R i = true ∧ (R.buckets i).base_addr = pb

/-- The reachable-state invariant of the RAM:
the bucket count is positive, the page size is a power of two (at most
`2^32`), `page_count` counts the occupied slots, every occupied slot holds a
32-bit page-aligned base address and is found by `ht_find` at its own index,
every empty slot is the `calloc` image, and the page with base address 0
pre-created by `ram_create` is present. -/
def ram_inv (R : ram_t) : Prop :=
  0 < R.bucket_count ∧
  (∃ k, k < 33 ∧ R.page_size = 2 ^ k) ∧
  R.page_count = occCount R ∧
  (∀ i, i < R.bucket_count → occB R i = true →
    (R.buckets i).base_addr < U32 ∧
    (R.buckets i).base_addr % R.page_size = 0 ∧
    ht_find R.buckets R.bucket_count (R.buckets i).base_addr = some i) ∧
  (∀ i, i < R.bucket_count → occB R i = false → R.buckets i = empty_bucket) ∧
  pagePresent R 0

/-! ### Operation sequences

A client-visible operation on a RAM block, and the execution of a list of
them.  This is the reachability language the quantified spec invariants
range over: a state is reachable when it is `run_ops` of `ram_create`. -/

/-- One public RAM operation (`ram_get`, `ram_set`, `ram_get_set`,
`ram_init`). -/
inductive ram_op where
  | get_op (addr : Nat)
  | set_op (addr : Nat) (value : Nat)
  | get_set_op (addr : Nat) (value : Nat)
  | init_op (data : List Nat)

/-- The address accessed by an operation (`init_op` starts at address 0). -/
def ram_op_addr : ram_op → Nat
  | ram_op.get_op a => a
  | ram_op.set_op a _ => a
  | ram_op.get_set_op a _ => a
  | ram_op.init_op _ => 0

/-- `op` is well formed when the address (and, for `init_op`, every
initialized address) fits in `addr_t`. -/
def ram_op_wf : ram_op → Prop
  | ram_op.get_op a => a < U32
  | ram_op.set_op a _ => a < U32
  | ram_op.get_set_op a _ => a < U32
  | ram_op.init_op data => data.length ≤ U32

/-- `op` stores a value at address `a` (`get` never stores; `init` stores at
every address below the data length). -/
def writes_at (op : ram_op) (a : Nat) : Prop :=
  match op with
  | ram_op.get_op _ => False
  | ram_op.set_op b _ => b = a
  | ram_op.get_set_op b _ => b = a
  | ram_op.init_op data => a < data.length

/-- Execute one operation, keeping only the state (`none` = divergence). -/
def run_op (R : ram_t) : ram_op → Option ram_t
  | ram_op.get_op a => (ram_get R a).map (fun r => r.2.1)
  | ram_op.set_op a v => (ram_set R a v).map (fun r => r.1)
  | ram_op.get_set_op a v => (ram_get_set R a v).map (fun r => r.2.1)
  | ram_op.init_op data => ram_init R data

/-- Execute a list of operations in order. -/
def run_ops (R : ram_t) : List ram_op → Option ram_t
  | [] => some R
  | op :: rest =>
    match run_op R op with
    | none => none
    | some R' => run_ops R' rest

/-! ### File loading (`read_file`, `ram_from_file`, `rom_from_file`)

The file system is modelled as the optional byte contents of the named file
(`none` = `fopen` fails), and the single `malloc` of `read_file` by a
Boolean saying whether it succeeds.  `fread` is modelled as reading the full
contents (no I/O errors), and words are assembled from bytes in host
(little-endian) order. -/

/-- Group a byte stream into 32-bit words, four bytes per word,
little-endian (host order on the supported platforms); a trailing group of
fewer than four bytes yields no word. -/
def bytesToWords : List Nat → List Nat
  | b0 :: b1 :: b2 :: b3 :: rest =>
    (b0 + 256 * b1 + 65536 * b2 + 16777216 * b3) :: bytesToWords rest
  | _ => []

/-- `src/memory.c`, `read_file`: `none` when `fopen` fails, when the byte
length is not a multiple of `sizeof(word_t) = 4`, or when the `malloc`
fails; otherwise the word contents of the file.  (Note the C code accepts a
zero-byte file: `0 % 4 == 0`.) -/
def read_file (contents : Option (List Nat)) (allocOk : Bool) :
    Option (List Nat) :=
  match contents with
  | none => none
  | some bytes =>
    if bytes.length % 4 ≠ 0 then none
    else if allocOk = false then none
    else some (bytesToWords bytes)

/-- `src/memory.c`, `file_error`: the diagnostic printed on the error stream
before `abort`. -/
def file_error_msg (filename : String) : String :=
  "error: failed to read file '" ++ filename ++ "'" ++ "\n"

/-- `src/memory.c`, `ram_from_file`: `some (Except.error msg)` models the
fatal `file_error` path, `some (Except.ok R)` a successful load, and `none`
divergence of `ram_init` (possible when the file spans more pages than the
hash table can hold). -/
def ram_from_file (filename : String) (contents : Option (List Nat))
    (allocOk : Bool) (page_size : Nat) : Option (Except String ram_t) :=
  match read_file contents allocOk with
  | none => some (Except.error (file_error_msg filename))
  | some data =>
    match ram_init (ram_create page_size) data with
    | none => none
    | some R => some (Except.ok R)

/-- `src/memory.h`, `struct rom_t` (the immutable flat word buffer). -/
structure rom_t where
  data : List Nat

/-- `src/memory.c`, `rom_create`: copy the word slice. -/
def rom_create (data : List Nat) : rom_t := ⟨data⟩

/-- `src/memory.h`, `rom_get`: `rom.data[addr]`; out-of-range access is
undefined in C, modelled by `none`. -/
def rom_get (rom : rom_t) (addr : Nat) : Option Nat := rom.data.get? addr

/-- `src/memory.c`, `rom_from_file`. -/
def rom_from_file (filename : String) (contents : Option (List Nat))
    (allocOk : Bool) : Except String rom_t :=
  match read_file contents allocOk with
  | none => Except.error (file_error_msg filename)
  | some data => Except.ok (rom_create data)

/-! ### Screen (`src/screen.c`)

`screen_put_character` is modelled as the exact byte string written to
standard output, `none` standing for a failed debug assertion
(out-of-range coordinates or a color index above 16). -/

/-- `SCREEN_WIDTH` in `src/screen.h`. -/
def SCREEN_WIDTH : Nat := 64

/-- `SCREEN_HEIGHT` in `src/screen.h`. -/
def SCREEN_HEIGHT : Nat := 16

/-- The foreground SGR code chain of `screen_put_character`:
`0 → 39`; `fg ≤ 9 → (fg - 1) + 30`; `fg ≤ 16 → 90 + (fg - 9)`; otherwise
`assert(0 && "invalid fg color")` (modelled as `none`). -/
def fg_sgr_code (fg_color : Nat) : Option Nat :=
  if fg_color = 0 then some 39
  else if fg_color ≤ 9 then some (fg_color - 1 + 30)
  else if fg_color ≤ 16 then some (90 + (fg_color - 9))
  else none

/-- The background SGR code chain of `screen_put_character`:
`0 → 49`; `bg ≤ 9 → (bg - 1) + 40`; `bg ≤ 16 → 100 + (bg - 9)`; otherwise
`assert(0 && "invalid bg color")`. -/
def bg_sgr_code (bg_color : Nat) : Option Nat :=
  if bg_color = 0 then some 49
  else if bg_color ≤ 9 then some (bg_color - 1 + 40)
  else if bg_color ≤ 16 then some (100 + (bg_color - 9))
  else none

/-- The SGR codes of the set style flags of a styled character word, in the
order the C code tests them (bits 18-25: bold `1`, faint `2`, italic `3`,
underline `4`, blinking `5`, hide `8`, crossed `9`, overline `53`). -/
def style_codes (styled_char : Nat) : List String :=
  (if styled_char &&& 262144 ≠ 0 then ["1"] else [])
    ++ (if styled_char &&& 524288 ≠ 0 then ["2"] else [])
    ++ (if styled_char &&& 1048576 ≠ 0 then ["3"] else [])
    ++ (if styled_char &&& 2097152 ≠ 0 then ["4"] else [])
    ++ (if styled_char &&& 4194304 ≠ 0 then ["5"] else [])
    ++ (if styled_char &&& 8388608 ≠ 0 then ["8"] else [])
    ++ (if styled_char &&& 16777216 ≠ 0 then ["9"] else [])
    ++ (if styled_char &&& 33554432 ≠ 0 then ["53"] else [])

/-- The contents of `style_buffer` as passed to `printf`: a leading `';'`
then the codes joined by `';'`, with the final `';'` removed; empty when no
flag is set. -/
def style_buffer (styled_char : Nat) : String :=
  String.join ((style_codes styled_char).map (fun s => ";" ++ s))

/-- `src/screen.c`, `screen_put_character`: the exact byte string emitted,
or `none` when a debug assertion fails.  The string is: save cursor;
position cursor at row `y+1`, column `x+1`; if any bit above the 7-bit
character is set, the SGR command `ESC [ 0 ; fg ; bg <styles> m`; the ASCII
byte; the unconditional attribute reset `ESC [ 0 m`; restore cursor. -/
def screen_put_character (x y styled_char : Nat) : Option String :=
  if SCREEN_WIDTH ≤ x ∨ SCREEN_HEIGHT ≤ y then none
  else
    let head_part := "\x1b[s" ++ "\x1b[" ++ toString (y + 1) ++ ";"
      ++ toString (x + 1) ++ "H"
    let ch := String.singleton (Char.ofNat (styled_char &&& 0x7f))
    if styled_char &&& 0xffffff80 = 0 then
      some (head_part ++ ch ++ "\x1b[0m" ++ "\x1b[u")
    else
      match fg_sgr_code ((styled_char >>> 8) &&& 0x1f),
            bg_sgr_code ((styled_char >>> 13) &&& 0x1f) with
      | some fg, some bg =>
        some (head_part
          ++ "\x1b[0;" ++ toString fg ++ ";" ++ toString bg
              ++ style_buffer styled_char ++ "m"
          ++ ch ++ "\x1b[0m" ++ "\x1b[u")
      | _, _ => none

/-! ### Arithmetic of `page_base` -/

lemma U32_pos : 0 < U32 := by simp [U32]

/-- The bit-masking form of the page base equals clearing the low `k` bits. -/
lemma page_base_eq {k a : Nat} (hk : k ≤ 32) (ha : a < U32) :
    page_base (2 ^ k) a = a - a % 2 ^ k := by
  have h1 : page_base (2 ^ k) a = (a >>> k) <<< k := by
    apply Nat.eq_of_testBit_eq
    intro j
    simp only [page_base, NOT_MASK, U32, Nat.testBit_and, Nat.testBit_xor,
      Nat.testBit_two_pow_sub_one, Nat.testBit_shiftLeft, Nat.testBit_shiftRight]
    by_cases hj32 : j < 32
    · by_cases hjk : j < k
      · simp [hjk, hj32]
      · have hkj : k ≤ j := Nat.le_of_not_lt hjk
        have : k + (j - k) = j := by omega
        simp [hjk, hj32, hkj, this]
    · have hbit : a.testBit j = false := by
        apply Nat.testBit_lt_two_pow
        calc a < 2 ^ 32 := ha
        _ ≤ 2 ^ j := Nat.pow_le_pow_right (by omega) (by omega)
      have hkj : k ≤ j := by omega
      have : k + (j - k) = j := by omega
      simp [hj32, hbit, hkj, this, Nat.lt_irrefl]
  have h2 : (a >>> k) <<< k = 2 ^ k * (a / 2 ^ k) := by
    rw [Nat.shiftRight_eq_div_pow, Nat.shiftLeft_eq]
    ring
  have h3 := Nat.div_add_mod a (2 ^ k)
  omega

lemma page_base_le (P a : Nat) : page_base P a ≤ a := Nat.and_le_left

lemma page_base_mod {k a : Nat} (hk : k ≤ 32) (ha : a < U32) :
    page_base (2 ^ k) a % 2 ^ k = 0 := by
  rw [page_base_eq hk ha]
  have h3 := Nat.div_add_mod a (2 ^ k)
  have : a - a % 2 ^ k = 2 ^ k * (a / 2 ^ k) := by omega
  rw [this]
  exact Nat.mul_mod_right _ _

lemma page_base_sub {k a : Nat} (hk : k ≤ 32) (ha : a < U32) :
    a - page_base (2 ^ k) a = a % 2 ^ k := by
  rw [page_base_eq hk ha]
  have := Nat.mod_le a (2 ^ k)
  omega

lemma page_base_of_aligned {k b : Nat} (hk : k ≤ 32) (hb : b < U32)
    (hal : b % 2 ^ k = 0) : page_base (2 ^ k) b = b := by
  rw [page_base_eq hk hb, hal]
  omega

/-- An aligned 32-bit base address leaves room for a full page below `2^32`,
and every in-page offset stays on the same page. -/
lemma page_base_add_off {k b off : Nat} (hk : k ≤ 32) (hb : b < U32)
    (hal : b % 2 ^ k = 0) (hoff : off < 2 ^ k) :
    b + off < U32 ∧ page_base (2 ^ k) (b + off) = b := by
  have hlt : b + off < U32 := by
    have hq : b = 2 ^ k * (b / 2 ^ k) := by
      have := Nat.div_add_mod b (2 ^ k)
      omega
    have hm : U32 = 2 ^ k * 2 ^ (32 - k) := by
      rw [U32, ← pow_add]
      congr 1
      omega
    have hqm : b / 2 ^ k < 2 ^ (32 - k) := by
      by_contra hge
      have : 2 ^ k * 2 ^ (32 - k) ≤ 2 ^ k * (b / 2 ^ k) :=
        Nat.mul_le_mul_left _ (Nat.le_of_not_lt hge)
      omega
    have h2 : 2 ^ k * (b / 2 ^ k) + 2 ^ k = 2 ^ k * (b / 2 ^ k + 1) := by ring
    have h3 : 2 ^ k * (b / 2 ^ k + 1) ≤ 2 ^ k * 2 ^ (32 - k) :=
      Nat.mul_le_mul_left _ (by omega)
    omega
  refine ⟨hlt, ?_⟩
  rw [page_base_eq hk hlt]
  have : (b + off) % 2 ^ k = off := by
    rw [Nat.add_mod, hal]
    simp [Nat.mod_eq_of_lt hoff]
  omega

lemma page_base_mod' {P k a : Nat} (hP : P = 2 ^ k) (hk : k ≤ 32)
    (ha : a < U32) : page_base P a % P = 0 := by
  subst hP
  exact page_base_mod hk ha

lemma page_base_sub' {P k a : Nat} (hP : P = 2 ^ k) (hk : k ≤ 32)
    (ha : a < U32) : a - page_base P a = a % P := by
  subst hP
  exact page_base_sub hk ha

lemma page_base_of_aligned' {P k b : Nat} (hP : P = 2 ^ k) (hk : k ≤ 32)
    (hb : b < U32) (hal : b % P = 0) : page_base P b = b := by
  subst hP
  exact page_base_of_aligned hk hb hal

lemma page_base_add_off' {P k b off : Nat} (hP : P = 2 ^ k) (hk : k ≤ 32)
    (hb : b < U32) (hal : b % P = 0) (hoff : off < P) :
    b + off < U32 ∧ page_base P (b + off) = b := by
  subst hP
  exact page_base_add_off hk hb hal hoff

/-! ### The probe loop of `ht_find` -/

lemma probe_step_lt {C i : Nat} (hC : 0 < C) : probe_step C i < C := by
  unfold probe_step
  split <;> omega

lemma ht_find_loop_lt {buckets : Nat → ram_page_t} {C key j : Nat}
    (hC : 0 < C) :
    ∀ fuel start, start < C →
      ht_find_loop buckets C key fuel start = some j → j < C := by
  intro fuel
  induction fuel with
  | zero => intro start _ h; simp [ht_find_loop] at h
  | succ fuel ih =>
    intro start hstart h
    rw [ht_find_loop] at h
    cases hd : (buckets start).data with
    | none => rw [hd] at h; simp at h; omega
    | some d =>
      rw [hd] at h
      simp at h
      by_cases hb : (buckets start).base_addr = key
      · rw [if_pos hb] at h; simp at h; omega
      · rw [if_neg hb] at h
        exact ih (probe_step C start) (probe_step_lt hC) h

lemma ht_find_loop_sound {buckets : Nat → ram_page_t} {C key j : Nat} :
    ∀ fuel start, ht_find_loop buckets C key fuel start = some j →
      (buckets j).data = none ∨
        ((buckets j).data ≠ none ∧ (buckets j).base_addr = key) := by
  intro fuel
  induction fuel with
  | zero => intro start h; simp [ht_find_loop] at h
  | succ fuel ih =>
    intro start h
    rw [ht_find_loop] at h
    cases hd : (buckets start).data with
    | none => rw [hd] at h; simp at h; subst h; exact Or.inl hd
    | some d =>
      rw [hd] at h
      by_cases hb : (buckets start).base_addr = key
      · rw [if_pos hb] at h; simp at h; subst h
        exact Or.inr ⟨by simp [hd], hb⟩
      · rw [if_neg hb] at h
        exact ih (probe_step C start) h

/-- The probe loop only discriminates slots on occupancy and base address. -/
lemma ht_find_loop_congr {b1 b2 : Nat → ram_page_t} {C key : Nat}
    (h : ∀ i, (b2 i).base_addr = (b1 i).base_addr ∧
      ((b2 i).data = none ↔ (b1 i).data = none)) :
    ∀ fuel start, ht_find_loop b2 C key fuel start
      = ht_find_loop b1 C key fuel start := by
  intro fuel
  induction fuel with
  | zero => intro start; simp [ht_find_loop]
  | succ fuel ih =>
    intro start
    rw [ht_find_loop, ht_find_loop]
    obtain ⟨hb, hd⟩ := h start
    cases h1 : (b1 start).data with
    | none =>
      have h2 : (b2 start).data = none := hd.mpr h1
      rw [h2]
    | some d =>
      cases h2 : (b2 start).data with
      | none => simp [hd.mp h2] at h1
      | some d' =>
        simp only [hb]
        by_cases hk : (b1 start).base_addr = key
        · rw [if_pos hk, if_pos hk]
        · rw [if_neg hk, if_neg hk]
          exact ih (probe_step C start)

/-- Writing a page into an empty slot does not disturb the probe of any key
that is found at an occupied slot. -/
lemma ht_find_loop_upd_notouch {buckets : Nat → ram_page_t} {C key e j : Nat}
    {p : ram_page_t}
    (he : (buckets e).data = none) (hj : (buckets j).data ≠ none) :
    ∀ fuel start, ht_find_loop buckets C key fuel start = some j →
      ht_find_loop (setBucket buckets e p) C key fuel start = some j := by
  intro fuel
  induction fuel with
  | zero => intro start h; simp [ht_find_loop] at h
  | succ fuel ih =>
    intro start h
    rw [ht_find_loop] at h
    cases hd : (buckets start).data with
    | none =>
      rw [hd] at h; simp at h
      exact absurd (h ▸ hd) hj
    | some d =>
      have hse : start ≠ e := fun hc => by rw [hc, he] at hd; cases hd
      have hslot : setBucket buckets e p start = buckets start := by
        simp [setBucket, hse]
      rw [hd] at h
      by_cases hb : (buckets start).base_addr = key
      · rw [if_pos hb] at h; simp at h; subst h
        rw [ht_find_loop, hslot, hd, if_pos hb]
      · rw [if_neg hb] at h
        rw [ht_find_loop, hslot, hd, if_neg hb]
        exact ih (probe_step C start) h

/-- After inserting a page for `key` into the empty slot the probe for `key`
designated, the probe for `key` finds that very slot. -/
lemma ht_find_loop_upd_self {buckets : Nat → ram_page_t} {C key j : Nat}
    {p : ram_page_t}
    (hj : (buckets j).data = none) (hpb : p.base_addr = key)
    (hpd : p.data ≠ none) :
    ∀ fuel start, ht_find_loop buckets C key fuel start = some j →
      ht_find_loop (setBucket buckets j p) C key fuel start = some j := by
  intro fuel
  induction fuel with
  | zero => intro start h; simp [ht_find_loop] at h
  | succ fuel ih =>
    intro start h
    rw [ht_find_loop] at h
    cases hd : (buckets start).data with
    | none =>
      rw [hd] at h; simp at h; subst h
      rw [ht_find_loop]
      have : setBucket buckets start p start = p := by simp [setBucket]
      rw [this]
      cases hp : p.data with
      | none => exact absurd hp hpd
      | some d => simp [hpb]
    | some d =>
      have hsj : start ≠ j := fun hc => by rw [hc, hj] at hd; cases hd
      have hslot : setBucket buckets j p start = buckets start := by
        simp [setBucket, hsj]
      rw [hd] at h
      by_cases hb : (buckets start).base_addr = key
      · rw [if_pos hb] at h; simp at h; subst h
        exact absurd hd (by rw [hj]; simp)
      · rw [if_neg hb] at h
        rw [ht_find_loop, hslot, hd, if_neg hb]
        exact ih (probe_step C start) h

/-- In a full table that does not contain `key`, the probe loop never
returns, whatever the fuel: the C `ht_find` runs forever. -/
lemma ht_find_loop_full_none {buckets : Nat → ram_page_t} {C key : Nat}
    (hC : 0 < C)
    (hfull : ∀ i, i < C →
      (buckets i).data ≠ none ∧ (buckets i).base_addr ≠ key) :
    ∀ fuel start, start < C →
      ht_find_loop buckets C key fuel start = none := by
  intro fuel
  induction fuel with
  | zero => intro start _; simp [ht_find_loop]
  | succ fuel ih =>
    intro start hstart
    obtain ⟨hocc, hne⟩ := hfull start hstart
    rw [ht_find_loop]
    cases hd : (buckets start).data with
    | none => exact absurd hd hocc
    | some d =>
      rw [if_neg hne]
      exact ih (probe_step C start) (probe_step_lt hC)

lemma ht_find_start_lt {C : Nat} (hC : 0 < C) (key : Nat) :
    hash key &&& (C - 1) < C :=
  Nat.lt_of_le_of_lt Nat.and_le_right (by omega)

lemma ht_find_lt {buckets : Nat → ram_page_t} {C key j : Nat} (hC : 0 < C)
    (h : ht_find buckets C key = some j) : j < C :=
  ht_find_loop_lt hC C _ (ht_find_start_lt hC key) h

lemma ht_find_sound {buckets : Nat → ram_page_t} {C key j : Nat}
    (h : ht_find buckets C key = some j) :
    (buckets j).data = none ∨
      ((buckets j).data ≠ none ∧ (buckets j).base_addr = key) :=
  ht_find_loop_sound C _ h

lemma ht_find_congr {b1 b2 : Nat → ram_page_t} {C key : Nat}
    (h : ∀ i, (b2 i).base_addr = (b1 i).base_addr ∧
      ((b2 i).data = none ↔ (b1 i).data = none)) :
    ht_find b2 C key = ht_find b1 C key :=
  ht_find_loop_congr h C _

lemma ht_find_upd_notouch {buckets : Nat → ram_page_t} {C key e j : Nat}
    {p : ram_page_t}
    (he : (buckets e).data = none) (hj : (buckets j).data ≠ none)
    (h : ht_find buckets C key = some j) :
    ht_find (setBucket buckets e p) C key = some j :=
  ht_find_loop_upd_notouch he hj C _ h

lemma ht_find_upd_self {buckets : Nat → ram_page_t} {C key j : Nat}
    {p : ram_page_t}
    (hj : (buckets j).data = none) (hpb : p.base_addr = key)
    (hpd : p.data ≠ none) (h : ht_find buckets C key = some j) :
    ht_find (setBucket buckets j p) C key = some j :=
  ht_find_loop_upd_self hj hpb hpd C _ h

/-! ### `slotOf` and `occCount` -/

lemma list_find?_congr {α : Type} {p q : α → Bool} :
    ∀ {l : List α}, (∀ x ∈ l, p x = q x) → l.find? p = l.find? q := by
  intro l
  induction l with
  | nil => intro _; rfl
  | cons a l ih =>
    intro h
    rw [List.find?_cons, List.find?_cons, h a (by simp)]
    cases q a with
    | true => rfl
    | false => exact ih (fun x hx => h x (by simp [hx]))

lemma find?_range_eq_some {C i : Nat} {p : Nat → Bool} (hi : i < C)
    (hp : p i = true) (huniq : ∀ j, j < C → p j = true → j = i) :
    (List.range C).find? p = some i := by
  have hex : ∃ x, x ∈ List.range C ∧ p x = true :=
    ⟨i, List.mem_range.mpr hi, hp⟩
  have hsome : ((List.range C).find? p).isSome := by
    rw [List.find?_isSome]
    exact hex
  cases hfind : (List.range C).find? p with
  | none => rw [hfind] at hsome; simp at hsome
  | some j =>
    have hj : j ∈ List.range C := List.mem_of_find?_eq_some hfind
    have hpj : p j = true := List.find?_some hfind
    rw [huniq j (List.mem_range.mp hj) hpj]

lemma find?_range_eq_none {C : Nat} {p : Nat → Bool}
    (h : ∀ j, j < C → p j = false) : (List.range C).find? p = none := by
  rw [List.find?_eq_none]
  intro x hx
  simp [h x (List.mem_range.mp hx)]

/-- Unpack the invariant. -/
lemma ram_inv_elim {R : ram_t} (h : ram_inv R) :
    0 < R.bucket_count ∧
    (∃ k, k ≤ 32 ∧ R.page_size = 2 ^ k) ∧
    R.page_count = occCount R ∧
    (∀ i, i < R.bucket_count → occB R i = true →
      (R.buckets i).base_addr < U32 ∧
      (R.buckets i).base_addr % R.page_size = 0 ∧
      ht_find R.buckets R.bucket_count (R.buckets i).base_addr = some i) ∧
    (∀ i, i < R.bucket_count → occB R i = false → R.buckets i = empty_bucket) ∧
    pagePresent R 0 := by
  obtain ⟨h1, ⟨k, hk, hP⟩, h3, h4, h5, h6⟩ := h
  exact ⟨h1, ⟨k, by omega, hP⟩, h3, h4, h5, h6⟩

/-- Under the invariant, the slot of an allocated page's base is unique and
`slotOf` finds it. -/
lemma slotOf_some_of {R : ram_t} (hinv : ram_inv R) {i : Nat}
    (hi : i < R.bucket_count) (hocc : occB R i = true)
    {pb : Nat} (hb : (R.buckets i).base_addr = pb) :
    slotOf R pb = some i := by
  obtain ⟨_, _, _, h4, _, _⟩ := ram_inv_elim hinv
  unfold slotOf
  apply find?_range_eq_some hi
  · simp [hocc, hb]
  · intro j hj hpj
    simp only [Bool.and_eq_true, beq_iff_eq] at hpj
    obtain ⟨hoccj, hbj⟩ := hpj
    have hfj := (h4 j hj hoccj).2.2
    have hfi := (h4 i hi hocc).2.2
    rw [hbj, ← hb] at hfj
    rw [hfj] at hfi
    exact Option.some_inj.mp hfi

lemma slotOf_none_of_absent {R : ram_t} {pb : Nat}
    (h : ∀ i, i < R.bucket_count → occB R i = true →
      (R.buckets i).base_addr ≠ pb) :
    slotOf R pb = none := by
  unfold slotOf
  apply find?_range_eq_none
  intro j hj
  cases hocc : occB R j with
  | false => simp [hocc]
  | true => simp [hocc, h j hj hocc]

lemma slotOf_mem {R : ram_t} {pb i : Nat} (h : slotOf R pb = some i) :
    i < R.bucket_count ∧ occB R i = true ∧ (R.buckets i).base_addr = pb := by
  unfold slotOf at h
  have hi := List.mem_range.mp (List.mem_of_find?_eq_some h)
  have hp := List.find?_some h
  simp only [Bool.and_eq_true, beq_iff_eq] at hp
  exact ⟨hi, hp.1, hp.2⟩

/-- Two states with pointwise equal occupancy and base addresses (and equal
bucket counts and page sizes) have the same `slotOf` everywhere. -/
lemma slotOf_congr {R R' : ram_t}
    (hC : R'.bucket_count = R.bucket_count)
    (h : ∀ i, (R'.buckets i).base_addr = (R.buckets i).base_addr ∧
      occB R' i = occB R i) :
    ∀ pb, slotOf R' pb = slotOf R pb := by
  intro pb
  unfold slotOf
  rw [hC]
  apply list_find?_congr
  intro x _
  rw [(h x).1, (h x).2]

/-- Inserting a page into an empty slot adds one occupied slot. -/
lemma occCount_insert {R R2 : ram_t} {i : Nat} {p : ram_page_t}
    (hi : i < R.bucket_count) (hocc : occB R i = false)
    (hp : p.data ≠ none)
    (hbc : R2.bucket_count = R.bucket_count)
    (hbk : R2.buckets = setBucket R.buckets i p) :
    occCount R2 = occCount R + 1 := by
  classical
  unfold occCount
  rw [hbc]
  have heq : ((Finset.range R.bucket_count).filter
        (fun j => occB R2 j = true))
      = insert i ((Finset.range R.bucket_count).filter
        (fun j => occB R j = true)) := by
    ext j
    simp only [Finset.mem_filter, Finset.mem_range, Finset.mem_insert]
    constructor
    · rintro ⟨hj, hoccj⟩
      by_cases hji : j = i
      · exact Or.inl hji
      · refine Or.inr ⟨hj, ?_⟩
        simpa [occB, hbk, setBucket, hji] using hoccj
    · rintro (hji | ⟨hj, hoccj⟩)
      · subst hji
        refine ⟨hi, ?_⟩
        simp only [occB, hbk, setBucket, if_pos rfl]
        cases hpd : p.data with
        | none => exact absurd hpd hp
        | some d => simp [hpd]
      · by_cases hji : j = i
        · subst hji
          rw [hoccj] at hocc
          cases hocc
        · refine ⟨hj, ?_⟩
          simpa [occB, hbk, setBucket, hji] using hoccj
  rw [heq, Finset.card_insert_of_not_mem]
  simp only [Finset.mem_filter, Finset.mem_range, not_and]
  intro _
  simp [hocc]

/-- Occupancy-preserving bucket updates preserve `occCount`. -/
lemma occCount_congr {R R' : ram_t}
    (hC : R'.bucket_count = R.bucket_count)
    (h : ∀ i, occB R' i = occB R i) : occCount R' = occCount R := by
  unfold occCount
  rw [hC]
  congr 1
  apply Finset.filter_congr
  intro j _
  rw [h j]

/-- If fewer than all slots are occupied, `page_count < bucket_count`. -/
lemma occCount_lt_of_empty {R : ram_t} {i : Nat} (hi : i < R.bucket_count)
    (hocc : occB R i = false) : occCount R < R.bucket_count := by
  classical
  unfold occCount
  have hsub : (Finset.range R.bucket_count).filter (fun j => occB R j = true)
      ⊆ (Finset.range R.bucket_count).erase i := by
    intro j hj
    simp only [Finset.mem_filter, Finset.mem_range] at hj
    rw [Finset.mem_erase]
    refine ⟨?_, Finset.mem_range.mpr hj.1⟩
    intro hji
    rw [hji, hocc] at hj
    cases hj.2
  calc ((Finset.range R.bucket_count).filter (fun j => occB R j = true)).card
      ≤ ((Finset.range R.bucket_count).erase i).card := Finset.card_le_card hsub
    _ < (Finset.range R.bucket_count).card :=
        Finset.card_erase_lt_of_mem (Finset.mem_range.mpr hi)
    _ = R.bucket_count := Finset.card_range _

/-! ### The specification of `get_ram_page` on reachable states -/

lemma occB_true_iff {R : ram_t} {i : Nat} :
    occB R i = true ↔ (R.buckets i).data ≠ none := by
  unfold occB
  cases (R.buckets i).data <;> simp

lemma occB_false_iff {R : ram_t} {i : Nat} :
    occB R i = false ↔ (R.buckets i).data = none := by
  unfold occB
  cases (R.buckets i).data <;> simp

/-- If the probe for `pb` ends at an empty slot, no occupied slot holds
`pb` (else findability would send the probe there). -/
lemma absent_of_find_empty {R : ram_t} (hinv : ram_inv R) {pb idx : Nat}
    (hfr : ht_find R.buckets R.bucket_count pb = some idx)
    (hempty : (R.buckets idx).data = none) :
    ∀ i, i < R.bucket_count → occB R i = true →
      (R.buckets i).base_addr ≠ pb := by
  obtain ⟨_, _, _, h4, _, _⟩ := ram_inv_elim hinv
  intro i hi hocc hcontra
  have hfi := (h4 i hi hocc).2.2
  rw [hcontra, hfr] at hfi
  have : idx = i := Option.some_inj.mp hfi
  subst this
  rw [occB_true_iff] at hocc
  exact hocc hempty

/-- Everything `get_ram_page` guarantees about a successful lookup from an
invariant state. -/
structure page_lookup_facts (R R' : ram_t) (addr idx : Nat) : Prop where
  inv' : ram_inv R'
  bc : R'.bucket_count = R.bucket_count
  ps : R'.page_size = R.page_size
  rl : R'.read_listener = R.read_listener
  wl : R'.write_listener = R.write_listener
  pc_mono : R.page_count ≤ R'.page_count
  idx_lt : idx < R.bucket_count
  occ : occB R' idx = true
  base_eq : (R'.buckets idx).base_addr = page_base R.page_size addr
  val : ramVal R' = ramVal R
  present : pagePresent R' (page_base R.page_size addr)
  pres_mono : ∀ pb, pagePresent R pb → pagePresent R' pb
  frame : ∀ j, j ≠ idx → R'.buckets j = R.buckets j
  page_words : ∀ d, (R'.buckets idx).data = some d →
    ∀ off, off < R.page_size →
      d off = ramVal R ((R'.buckets idx).base_addr + off)

lemma get_ram_page_spec {R R' : ram_t} {addr idx : Nat} (hinv : ram_inv R)
    (ha : addr < U32) (h : get_ram_page R addr = some (R', idx)) :
    page_lookup_facts R R' addr idx := by
  obtain ⟨hC, ⟨k, hk, hP⟩, hpc, h4, h5, hp0⟩ := ram_inv_elim hinv
  have hpble : page_base R.page_size addr ≤ addr := page_base_le _ _
  have hpbu : page_base R.page_size addr < U32 := Nat.lt_of_le_of_lt hpble ha
  have hpbal : page_base R.page_size addr % R.page_size = 0 :=
    page_base_mod' hP hk ha
  simp only [get_ram_page] at h
  cases hfr : ht_find R.buckets R.bucket_count (page_base R.page_size addr) with
  | none => rw [hfr] at h; cases h
  | some index =>
    rw [hfr] at h
    simp only at h
    have hidxlt : index < R.bucket_count := ht_find_lt hC hfr
    by_cases hhit : (R.buckets index).base_addr = page_base R.page_size addr
    · rw [if_pos hhit] at h
      simp only [Option.some_inj, Prod.mk.injEq] at h
      obtain ⟨hRR, hii⟩ := h
      subst hii
      subst hRR
      have hocc : occB R index = true := by
        by_contra hno
        have hfalse : occB R index = false := by
          cases hh : occB R index with
          | true => exact absurd hh hno
          | false => rfl
        have hbkt := h5 index hidxlt hfalse
        have hzero : (R.buckets index).base_addr = 0 := by rw [hbkt]; rfl
        have hpb0 : page_base R.page_size addr = 0 := by rw [← hhit, hzero]
        obtain ⟨i0, hi0, hocc0, hb0⟩ := hp0
        have hfi0 := (h4 i0 hi0 hocc0).2.2
        rw [hb0, ← hpb0, hfr] at hfi0
        have hie : index = i0 := Option.some_inj.mp hfi0
        subst hie
        rw [hocc0] at hfalse
        cases hfalse
      have hsl : slotOf R (page_base R.page_size addr) = some index :=
        slotOf_some_of hinv hidxlt hocc hhit
      refine ⟨hinv, rfl, rfl, rfl, rfl, Nat.le_refl _, hidxlt, hocc, hhit,
        rfl, ⟨index, hidxlt, hocc, hhit⟩, fun _ hp => hp, fun _ _ => rfl, ?_⟩
      intro d hd off hoff
      have hadd := page_base_add_off' hP hk hpbu hpbal hoff
      rw [hhit]
      simp only [ramVal, hadd.2, hsl, hd, hhit]
      congr 1
      omega
    · rw [if_neg hhit] at h
      have hempty : (R.buckets index).data = none := by
        rcases ht_find_sound hfr with he | ⟨hne, hbase⟩
        · exact he
        · exact absurd hbase hhit
      have hoccf : occB R index = false := occB_false_iff.mpr hempty
      have habsent := absent_of_find_empty hinv hfr hempty
      have hocclt : occCount R < R.bucket_count :=
        occCount_lt_of_empty hidxlt hoccf
      have hgrow : ¬(R.page_count = R.bucket_count) := by omega
      rw [if_neg hgrow] at h
      simp only [Option.some_inj, Prod.mk.injEq] at h
      obtain ⟨hRR, hii⟩ := h
      subst hii
      subst hRR
      have hocc2 : occB { R with
          buckets := setBucket R.buckets index
            (init_ram_page (page_base R.page_size addr))
          page_count := R.page_count + 1 } index = true := by
        simp [occB, setBucket, init_ram_page]
      set R2 : ram_t := { R with
          buckets := setBucket R.buckets index
            (init_ram_page (page_base R.page_size addr))
          page_count := R.page_count + 1 } with hR2def
      have hbase2 : (R2.buckets index).base_addr = page_base R.page_size addr := by
        simp [hR2def, setBucket, init_ram_page]
      have hframe : ∀ j, j ≠ index → R2.buckets j = R.buckets j := by
        intro j hj
        simp [hR2def, setBucket, hj]
      have hoccsame : ∀ j, j ≠ index → occB R2 j = occB R j := by
        intro j hj
        simp [occB, hR2def, setBucket, hj]
      have hinv2 : ram_inv R2 := by
        refine ⟨hC, ⟨k, by omega, hP⟩, ?_, ?_, ?_, ?_⟩
        · have hcnt := @occCount_insert R R2 index
            (init_ram_page (page_base R.page_size addr)) hidxlt hoccf
            (by simp [init_ram_page]) rfl rfl
          rw [hcnt]
          show R.page_count + 1 = occCount R + 1
          omega
        · intro i hi hocci
          by_cases hij : i = index
          · subst hij
            rw [hbase2]
            refine ⟨hpbu, hpbal, ?_⟩
            exact ht_find_upd_self hempty rfl (by simp [init_ram_page]) hfr
          · rw [hframe i hij]
            have hocci' : occB R i = true := by
              rw [← hoccsame i hij]; exact hocci
            obtain ⟨hu, hal, hfind⟩ := h4 i hi hocci'
            exact ⟨hu, hal,
              ht_find_upd_notouch hempty (occB_true_iff.mp hocci') hfind⟩
        · intro i hi hocci
          by_cases hij : i = index
          · subst hij
            rw [hocc2] at hocci
            cases hocci
          · rw [hframe i hij]
            exact h5 i hi (by rw [← hoccsame i hij]; exact hocci)
        · obtain ⟨i0, hi0, hocc0, hb0⟩ := hp0
          have hi0ne : i0 ≠ index := by
            intro hc
            rw [hc, hoccf] at hocc0
            cases hocc0
          exact ⟨i0, hi0, by rw [hoccsame i0 hi0ne]; exact hocc0,
            by rw [hframe i0 hi0ne]; exact hb0⟩
      have hslot2 : slotOf R2 (page_base R.page_size addr) = some index :=
        slotOf_some_of hinv2 hidxlt hocc2 hbase2
      have hnone : slotOf R (page_base R.page_size addr) = none :=
        slotOf_none_of_absent habsent
      have hdz : (R2.buckets index).data = some (fun _ => 0) := by
        simp [hR2def, setBucket, init_ram_page]
      have hps2 : R2.page_size = R.page_size := rfl
      have hval : ramVal R2 = ramVal R := by
        funext a'
        by_cases hpp : page_base R.page_size a' = page_base R.page_size addr
        · simp only [ramVal, hps2, hpp, hslot2, hnone, hdz]
          simp [setBucket, init_ram_page]
        · have hcong : slotOf R2 (page_base R.page_size a')
              = slotOf R (page_base R.page_size a') := by
            unfold slotOf
            have hbc2 : R2.bucket_count = R.bucket_count := rfl
            rw [hbc2]
            apply list_find?_congr
            intro x _
            by_cases hxi : x = index
            · subst hxi
              rw [hoccf, hocc2, hbase2]
              simp only [Bool.true_and, Bool.false_and]
              simp
              exact fun hc => hpp hc.symm
            · rw [hoccsame x hxi, hframe x hxi]
          simp only [ramVal, hps2, hcong]
          cases hso : slotOf R (page_base R.page_size a') with
          | none => rfl
          | some j =>
            have hjne : j ≠ index := by
              intro hc
              obtain ⟨_, hoccj, _⟩ := slotOf_mem hso
              rw [hc, hoccf] at hoccj
              cases hoccj
            simp [setBucket, hjne]
      have hpcmono : R.page_count ≤ R2.page_count := by
        rw [hR2def]
        show R.page_count ≤ R.page_count + 1
        omega
      refine ⟨hinv2, rfl, rfl, rfl, rfl, hpcmono, hidxlt, hocc2,
        hbase2, hval, ⟨index, hidxlt, hocc2, hbase2⟩, ?_, hframe, ?_⟩
      · rintro pb ⟨i, hi, hocci, hbi⟩
        have hine : i ≠ index := by
          intro hc
          rw [hc, hoccf] at hocci
          cases hocci
        exact ⟨i, hi, by rw [hoccsame i hine]; exact hocci,
          by rw [hframe i hine]; exact hbi⟩
      · intro d hd off hoff
        rw [hdz] at hd
        have hdeq : d = fun _ => 0 := (Option.some_inj.mp hd).symm
        subst hdeq
        rw [hbase2]
        have hadd := page_base_add_off' hP hk hpbu hpbal hoff
        simp only [ramVal, hadd.2, hnone]

/-! ### Specifications of the public RAM operations -/

/-- `get_ram_page` never touches the listener lists or the page size, on any
state (no invariant needed). -/
lemma get_ram_page_components {R R' : ram_t} {addr idx : Nat}
    (h : get_ram_page R addr = some (R', idx)) :
    R'.read_listener = R.read_listener ∧
    R'.write_listener = R.write_listener ∧
    R'.page_size = R.page_size := by
  simp only [get_ram_page] at h
  cases hfr : ht_find R.buckets R.bucket_count (page_base R.page_size addr) with
  | none => rw [hfr] at h; cases h
  | some index =>
    rw [hfr] at h
    simp only at h
    by_cases hhit : (R.buckets index).base_addr = page_base R.page_size addr
    · rw [if_pos hhit] at h
      simp only [Option.some_inj, Prod.mk.injEq] at h
      obtain ⟨hRR, _⟩ := h
      subst hRR
      exact ⟨rfl, rfl, rfl⟩
    · rw [if_neg hhit] at h
      by_cases hg : R.page_count = R.bucket_count
      · rw [if_pos hg] at h
        simp only [Option.some_inj, Prod.mk.injEq] at h
        obtain ⟨hRR, _⟩ := h
        subst hRR
        exact ⟨rfl, rfl, rfl⟩
      · rw [if_neg hg] at h
        simp only [Option.some_inj, Prod.mk.injEq] at h
        obtain ⟨hRR, _⟩ := h
        subst hRR
        exact ⟨rfl, rfl, rfl⟩

/-- A lookup of an already-allocated page is a pure hit: no state change. -/
lemma get_ram_page_of_present {R : ram_t} {addr i : Nat} (hinv : ram_inv R)
    (hi : i < R.bucket_count) (hocc : occB R i = true)
    (hb : (R.buckets i).base_addr = page_base R.page_size addr) :
    get_ram_page R addr = some (R, i) := by
  obtain ⟨_, _, _, h4, _, _⟩ := ram_inv_elim hinv
  have hfind := (h4 i hi hocc).2.2
  rw [hb] at hfind
  simp only [get_ram_page, hfind]
  rw [if_pos hb]

lemma ram_get_some_spec {R R' : ram_t} {addr v : Nat} {tr : List mem_event}
    (hinv : ram_inv R) (ha : addr < U32)
    (h : ram_get R addr = some (v, R', tr)) :
    v = ramVal R addr ∧ ram_inv R' ∧ ramVal R' = ramVal R ∧
    R'.read_listener = R.read_listener ∧
    R'.write_listener = R.write_listener ∧
    R'.page_size = R.page_size ∧ R'.bucket_count = R.bucket_count ∧
    (∀ pb, pagePresent R pb → pagePresent R' pb) ∧
    pagePresent R' (page_base R.page_size addr) ∧
    tr = handle_read_loop R.read_listener 0 addr := by
  simp only [ram_get] at h
  cases hgp : get_ram_page R addr with
  | none => rw [hgp] at h; cases h
  | some pr =>
    obtain ⟨Rm, idx⟩ := pr
    rw [hgp] at h
    simp only at h
    have F := get_ram_page_spec hinv ha hgp
    cases hd : (Rm.buckets idx).data with
    | none => rw [hd] at h; cases h
    | some d =>
      rw [hd] at h
      simp only [Option.some_inj, Prod.mk.injEq] at h
      obtain ⟨hv, hRm, htr⟩ := h
      subst hRm
      obtain ⟨k, hk, hP⟩ := (ram_inv_elim hinv).2.1
      have hoffP : addr - page_base R.page_size addr < R.page_size := by
        rw [page_base_sub' hP hk ha]
        rw [hP]
        exact Nat.mod_lt _ (by positivity)
      have hval := F.page_words d hd (addr - page_base R.page_size addr)
        hoffP
      rw [F.base_eq] at hval hv
      have hadd : page_base R.page_size addr
          + (addr - page_base R.page_size addr) = addr := by
        have := page_base_le R.page_size addr
        omega
      rw [hadd] at hval
      rw [hval] at hv
      exact ⟨hv.symm, F.inv', F.val, F.rl, F.wl, F.ps, F.bc, F.pres_mono,
        F.present, by rw [← htr, F.rl]⟩

lemma ram_get_of_present {R : ram_t} {addr : Nat} (hinv : ram_inv R)
    (hp : pagePresent R (page_base R.page_size addr)) :
    ram_get R addr
      = some (ramVal R addr, R, handle_read_loop R.read_listener 0 addr) := by
  obtain ⟨i, hi, hocc, hb⟩ := hp
  have hgp := get_ram_page_of_present hinv hi hocc hb
  simp only [ram_get, hgp]
  cases hd : (R.buckets i).data with
  | none =>
    rw [occB_true_iff] at hocc
    exact absurd hd hocc
  | some d =>
    have hsl : slotOf R (page_base R.page_size addr) = some i :=
      slotOf_some_of hinv hi hocc hb
    have hv : ramVal R addr = d (addr - (R.buckets i).base_addr) := by
      simp only [ramVal, hsl, hd]
    rw [hv]

/-- The state produced by the word store of `ram_set` / `ram_get_set`:
slot `i`'s word at the in-page offset of `addr` becomes `value`. -/
def store_word (S : ram_t) (i addr value : Nat) (d : Nat → Nat) : ram_t :=
  let p := S.buckets i
  let d' : Nat → Nat := fun o => if o = addr - p.base_addr then value else d o
  { S with buckets := setBucket S.buckets i { p with data := some d' } }

lemma store_word_spec {S : ram_t} {i addr value : Nat} {d : Nat → Nat}
    (hinv : ram_inv S) (ha : addr < U32) (hi : i < S.bucket_count)
    (hd : (S.buckets i).data = some d)
    (hb : (S.buckets i).base_addr = page_base S.page_size addr) :
    ram_inv (store_word S i addr value d) ∧
    (∀ x, ramVal (store_word S i addr value d) x
        = if x = addr then value else ramVal S x) ∧
    (∀ pb, pagePresent (store_word S i addr value d) pb ↔ pagePresent S pb) := by
  have hocc : occB S i = true := by
    rw [occB_true_iff]
    rw [hd]
    simp
  have hoccsame : ∀ j, occB (store_word S i addr value d) j = occB S j := by
    intro j
    by_cases hj : j = i
    · subst hj
      rw [hocc]
      simp [occB, store_word, setBucket]
    · simp [occB, store_word, setBucket, hj]
  have hbasesame : ∀ j, ((store_word S i addr value d).buckets j).base_addr
      = (S.buckets j).base_addr := by
    intro j
    by_cases hj : j = i
    · subst hj
      simp [store_word, setBucket]
    · simp [store_word, setBucket, hj]
  have hframe : ∀ j, j ≠ i →
      (store_word S i addr value d).buckets j = S.buckets j := by
    intro j hj
    simp [store_word, setBucket, hj]
  have hbc : (store_word S i addr value d).bucket_count = S.bucket_count := rfl
  have hps : (store_word S i addr value d).page_size = S.page_size := rfl
  have hdata : ((store_word S i addr value d).buckets i).data
      = some (fun o => if o = addr - (S.buckets i).base_addr then value
          else d o) := by
    simp [store_word, setBucket]
  have hpres : ∀ pb, pagePresent (store_word S i addr value d) pb
      ↔ pagePresent S pb := by
    intro pb
    constructor
    · rintro ⟨j, hj, hoccj, hbj⟩
      exact ⟨j, by rw [← hbc]; exact hj, by rw [← hoccsame j]; exact hoccj,
        by rw [← hbasesame j]; exact hbj⟩
    · rintro ⟨j, hj, hoccj, hbj⟩
      exact ⟨j, by rw [hbc]; exact hj, by rw [hoccsame j]; exact hoccj,
        by rw [hbasesame j]; exact hbj⟩
  obtain ⟨hC, ⟨k, hk, hP⟩, hpc, h4, h5, hp0⟩ := ram_inv_elim hinv
  have hfcong : ∀ key, ht_find (store_word S i addr value d).buckets
      S.bucket_count key = ht_find S.buckets S.bucket_count key := by
    intro key
    apply ht_find_congr
    intro j
    refine ⟨hbasesame j, ?_⟩
    have h1 := hoccsame j
    rw [occB, occB] at h1
    constructor
    · intro hn
      cases hm : (S.buckets j).data with
      | none => rfl
      | some dd => rw [hn, hm] at h1; simp at h1
    · intro hn
      cases hm : ((store_word S i addr value d).buckets j).data with
      | none => rfl
      | some dd => rw [hn, hm] at h1; simp at h1
  have hinv' : ram_inv (store_word S i addr value d) := by
    refine ⟨by rw [hbc]; exact hC, ⟨k, by omega, by rw [hps]; exact hP⟩, ?_,
      ?_, ?_, ?_⟩
    · have : occCount (store_word S i addr value d) = occCount S :=
        occCount_congr hbc hoccsame
      rw [this]
      show S.page_count = occCount S
      exact hpc
    · intro j hj hoccj
      rw [hbc] at hj
      have hoccj' : occB S j = true := by rw [← hoccsame j]; exact hoccj
      obtain ⟨hu, hal, hfind⟩ := h4 j hj hoccj'
      rw [hbasesame j, hbc, hps]
      exact ⟨hu, hal, by rw [hfcong]; exact hfind⟩
    · intro j hj hoccj
      rw [hbc] at hj
      have hoccj' : occB S j = false := by rw [← hoccsame j]; exact hoccj
      have hji : j ≠ i := by
        intro hc
        rw [hc, hocc] at hoccj'
        cases hoccj'
      rw [hframe j hji]
      exact h5 j hj hoccj'
    · exact (hpres 0).mpr hp0
  have hslot : ∀ pb, slotOf (store_word S i addr value d) pb = slotOf S pb :=
    slotOf_congr hbc (fun j => ⟨hbasesame j, hoccsame j⟩)
  refine ⟨hinv', ?_, hpres⟩
  intro x
  have hsli : slotOf S (page_base S.page_size addr) = some i :=
    slotOf_some_of hinv hi hocc hb
  have hblex : (S.buckets i).base_addr ≤ addr := by
    rw [hb]
    exact page_base_le _ _
  by_cases hx : x = addr
  · subst hx
    simp only [ramVal, hps, hslot, hsli, hdata, hbasesame]
    simp
  · rw [if_neg hx]
    cases hso : slotOf S (page_base S.page_size x) with
    | none => simp only [ramVal, hps, hslot, hso]
    | some j =>
      by_cases hji : j = i
      · subst hji
        obtain ⟨_, _, hbj⟩ := slotOf_mem hso
        have hblex2 : (S.buckets j).base_addr ≤ x := by
          rw [hbj]
          exact page_base_le _ _
        have hoffne : x - (S.buckets j).base_addr
            ≠ addr - (S.buckets j).base_addr := by
          intro hc
          apply hx
          omega
        simp only [ramVal, hps, hslot, hso, hdata, hd, hbasesame]
        rw [if_neg hoffne]
      · simp only [ramVal, hps, hslot, hso]
        rw [hframe j hji]

lemma ram_set_some_spec {R R' : ram_t} {addr value : Nat}
    {tr : List mem_event}
    (hinv : ram_inv R) (ha : addr < U32)
    (h : ram_set R addr value = some (R', tr)) :
    ram_inv R' ∧
    (∀ x, ramVal R' x = if x = addr then value else ramVal R x) ∧
    R'.read_listener = R.read_listener ∧
    R'.write_listener = R.write_listener ∧
    R'.page_size = R.page_size ∧ R'.bucket_count = R.bucket_count ∧
    (∀ pb, pagePresent R pb → pagePresent R' pb) ∧
    pagePresent R' (page_base R.page_size addr) ∧
    tr = handle_write_loop R.write_listener 0 addr value := by
  simp only [ram_set] at h
  cases hgp : get_ram_page R addr with
  | none => rw [hgp] at h; cases h
  | some pr =>
    obtain ⟨Rm, idx⟩ := pr
    rw [hgp] at h
    simp only at h
    have F := get_ram_page_spec hinv ha hgp
    cases hd : (Rm.buckets idx).data with
    | none => rw [hd] at h; cases h
    | some d =>
      rw [hd] at h
      simp only [Option.some_inj, Prod.mk.injEq] at h
      obtain ⟨hR', htr⟩ := h
      have hRm : ram_inv Rm := F.inv'
      have haddr : addr < U32 := ha
      have hb : (Rm.buckets idx).base_addr = page_base Rm.page_size addr := by
        rw [F.ps]
        exact F.base_eq
      have hidx : idx < Rm.bucket_count := by
        rw [F.bc]
        exact F.idx_lt
      have SW := @store_word_spec Rm idx addr value d hRm haddr hidx hd hb
      have hR'sw : R' = store_word Rm idx addr value d := by
        rw [← hR']
        rfl
      subst hR'sw
      refine ⟨SW.1, ?_, ?_, ?_, ?_, ?_, ?_, ?_, ?_⟩
      · intro x
        rw [SW.2.1 x, F.val]
      · show (store_word Rm idx addr value d).read_listener = R.read_listener
        rw [← F.rl]
        rfl
      · show (store_word Rm idx addr value d).write_listener = R.write_listener
        rw [← F.wl]
        rfl
      · show (store_word Rm idx addr value d).page_size = R.page_size
        rw [← F.ps]
        rfl
      · show (store_word Rm idx addr value d).bucket_count = R.bucket_count
        rw [← F.bc]
        rfl
      · exact fun pb hpb => (SW.2.2 pb).mpr (F.pres_mono pb hpb)
      · exact (SW.2.2 _).mpr F.present
      · rw [← htr, F.wl]

/-- `ram_get_set` is exactly `ram_get` followed by `ram_set`, with the
returned value taken from the get, the state from the set, and the two
event lists concatenated (read events first). -/
lemma ram_get_set_decomp {R : ram_t} {addr value : Nat} (hinv : ram_inv R)
    (ha : addr < U32) :
    ram_get_set R addr value =
      match ram_get R addr with
      | none => none
      | some (v0, R1, tr1) =>
        match ram_set R1 addr value with
        | none => none
        | some (R2, tr2) => some (v0, R2, tr1 ++ tr2) := by
  cases hgp : get_ram_page R addr with
  | none => simp [ram_get_set, ram_get, hgp]
  | some pr =>
    obtain ⟨Rm, idx⟩ := pr
    have F := get_ram_page_spec hinv ha hgp
    cases hd : (Rm.buckets idx).data with
    | none => simp [ram_get_set, ram_get, hgp, hd]
    | some d =>
      have hb : (Rm.buckets idx).base_addr = page_base Rm.page_size addr := by
        rw [F.ps]
        exact F.base_eq
      have hidx : idx < Rm.bucket_count := by
        rw [F.bc]
        exact F.idx_lt
      have hgp2 : get_ram_page Rm addr = some (Rm, idx) :=
        get_ram_page_of_present F.inv' hidx F.occ hb
      simp [ram_get_set, ram_get, ram_set, hgp, hd, hgp2]

lemma ram_get_set_some_spec {R R' : ram_t} {addr value v : Nat}
    {tr : List mem_event} (hinv : ram_inv R) (ha : addr < U32)
    (h : ram_get_set R addr value = some (v, R', tr)) :
    v = ramVal R addr ∧ ram_inv R' ∧
    (∀ x, ramVal R' x = if x = addr then value else ramVal R x) ∧
    R'.read_listener = R.read_listener ∧
    R'.write_listener = R.write_listener ∧
    R'.page_size = R.page_size ∧ R'.bucket_count = R.bucket_count ∧
    (∀ pb, pagePresent R pb → pagePresent R' pb) ∧
    pagePresent R' (page_base R.page_size addr) ∧
    tr = handle_read_loop R.read_listener 0 addr
      ++ handle_write_loop R.write_listener 0 addr value := by
  rw [ram_get_set_decomp hinv ha] at h
  cases hget : ram_get R addr with
  | none => rw [hget] at h; cases h
  | some t =>
    obtain ⟨v0, R1, tr1⟩ := t
    rw [hget] at h
    simp only at h
    cases hset : ram_set R1 addr value with
    | none => rw [hset] at h; cases h
    | some p =>
      obtain ⟨R2, tr2⟩ := p
      rw [hset] at h
      simp only [Option.some_inj, Prod.mk.injEq] at h
      obtain ⟨hv, hR, htr⟩ := h
      subst hv
      subst hR
      obtain ⟨hval, hinv1, hsame1, hrl1, hwl1, hps1, hbc1, hmono1, _, htr1⟩ :=
        ram_get_some_spec hinv ha hget
      obtain ⟨hinv2, hupd2, hrl2, hwl2, hps2, hbc2, hmono2, hpres2, htr2⟩ :=
        ram_set_some_spec hinv1 ha hset
      refine ⟨hval, hinv2, ?_, by rw [hrl2, hrl1], by rw [hwl2, hwl1],
        by rw [hps2, hps1], by rw [hbc2, hbc1],
        fun pb hpb => hmono2 pb (hmono1 pb hpb), ?_, ?_⟩
      · intro x
        rw [hupd2 x, hsame1]
      · rw [hps1] at hpres2
        exact hpres2
      · rw [← htr, htr1, htr2, hwl1]

/-- Overwrite the data buffer of slot `i` (used by `ram_init`'s `memcpy`). -/
def set_page_data (S : ram_t) (i : Nat) (dNew : Nat → Nat) : ram_t :=
  let p := S.buckets i
  { S with buckets := setBucket S.buckets i { p with data := some dNew } }

lemma set_page_data_facts {S : ram_t} {i : Nat} {dNew : Nat → Nat}
    (hinv : ram_inv S) (hi : i < S.bucket_count) (hocc : occB S i = true) :
    ram_inv (set_page_data S i dNew) ∧
    (∀ pb, slotOf (set_page_data S i dNew) pb = slotOf S pb) ∧
    (∀ pb, pagePresent (set_page_data S i dNew) pb ↔ pagePresent S pb) ∧
    (∀ j, j ≠ i → (set_page_data S i dNew).buckets j = S.buckets j) ∧
    ((set_page_data S i dNew).buckets i).base_addr = (S.buckets i).base_addr ∧
    ((set_page_data S i dNew).buckets i).data = some dNew := by
  have hoccsame : ∀ j, occB (set_page_data S i dNew) j = occB S j := by
    intro j
    by_cases hj : j = i
    · subst hj
      rw [hocc]
      simp [occB, set_page_data, setBucket]
    · simp [occB, set_page_data, setBucket, hj]
  have hbasesame : ∀ j, ((set_page_data S i dNew).buckets j).base_addr
      = (S.buckets j).base_addr := by
    intro j
    by_cases hj : j = i
    · subst hj
      simp [set_page_data, setBucket]
    · simp [set_page_data, setBucket, hj]
  have hframe : ∀ j, j ≠ i →
      (set_page_data S i dNew).buckets j = S.buckets j := by
    intro j hj
    simp [set_page_data, setBucket, hj]
  have hbc : (set_page_data S i dNew).bucket_count = S.bucket_count := rfl
  have hps : (set_page_data S i dNew).page_size = S.page_size := rfl
  have hdata : ((set_page_data S i dNew).buckets i).data = some dNew := by
    simp [set_page_data, setBucket]
  have hpres : ∀ pb, pagePresent (set_page_data S i dNew) pb
      ↔ pagePresent S pb := by
    intro pb
    constructor
    · rintro ⟨j, hj, hoccj, hbj⟩
      exact ⟨j, by rw [← hbc]; exact hj, by rw [← hoccsame j]; exact hoccj,
        by rw [← hbasesame j]; exact hbj⟩
    · rintro ⟨j, hj, hoccj, hbj⟩
      exact ⟨j, by rw [hbc]; exact hj, by rw [hoccsame j]; exact hoccj,
        by rw [hbasesame j]; exact hbj⟩
  obtain ⟨hC, ⟨k, hk, hP⟩, hpc, h4, h5, hp0⟩ := ram_inv_elim hinv
  have hfcong : ∀ key, ht_find (set_page_data S i dNew).buckets
      S.bucket_count key = ht_find S.buckets S.bucket_count key := by
    intro key
    apply ht_find_congr
    intro j
    refine ⟨hbasesame j, ?_⟩
    have h1 := hoccsame j
    rw [occB, occB] at h1
    constructor
    · intro hn
      cases hm : (S.buckets j).data with
      | none => rfl
      | some dd => rw [hn, hm] at h1; simp at h1
    · intro hn
      cases hm : ((set_page_data S i dNew).buckets j).data with
      | none => rfl
      | some dd => rw [hn, hm] at h1; simp at h1
  have hinv' : ram_inv (set_page_data S i dNew) := by
    refine ⟨by rw [hbc]; exact hC, ⟨k, by omega, by rw [hps]; exact hP⟩, ?_,
      ?_, ?_, ?_⟩
    · have : occCount (set_page_data S i dNew) = occCount S :=
        occCount_congr hbc hoccsame
      rw [this]
      show S.page_count = occCount S
      exact hpc
    · intro j hj hoccj
      rw [hbc] at hj
      have hoccj' : occB S j = true := by rw [← hoccsame j]; exact hoccj
      obtain ⟨hu, hal, hfind⟩ := h4 j hj hoccj'
      rw [hbasesame j, hbc, hps]
      exact ⟨hu, hal, by rw [hfcong]; exact hfind⟩
    · intro j hj hoccj
      rw [hbc] at hj
      have hoccj' : occB S j = false := by rw [← hoccsame j]; exact hoccj
      have hji : j ≠ i := by
        intro hc
        rw [hc, hocc] at hoccj'
        cases hoccj'
      rw [hframe j hji]
      exact h5 j hj hoccj'
    · exact (hpres 0).mpr hp0
  exact ⟨hinv', slotOf_congr hbc (fun j => ⟨hbasesame j, hoccsame j⟩),
    hpres, hframe, hbasesame i, hdata⟩

lemma set_page_data_ramVal {S : ram_t} {i : Nat} {dNew : Nat → Nat}
    (hinv : ram_inv S) (hi : i < S.bucket_count) (hocc : occB S i = true) :
    ∀ x, ramVal (set_page_data S i dNew) x
      = if page_base S.page_size x = (S.buckets i).base_addr
        then dNew (x - (S.buckets i).base_addr) else ramVal S x := by
  obtain ⟨hinv', hslot, _, hframe, hbase, hdata⟩ :=
    @set_page_data_facts S i dNew hinv hi hocc
  intro x
  have hps : (set_page_data S i dNew).page_size = S.page_size := rfl
  by_cases hx : page_base S.page_size x = (S.buckets i).base_addr
  · rw [if_pos hx]
    have hsl : slotOf S (page_base S.page_size x) = some i :=
      slotOf_some_of hinv hi hocc hx.symm
    simp only [ramVal, hps, hslot, hsl, hdata, hbase]
  · rw [if_neg hx]
    cases hso : slotOf S (page_base S.page_size x) with
    | none => simp only [ramVal, hps, hslot, hso]
    | some j =>
      have hji : j ≠ i := by
        intro hc
        obtain ⟨_, _, hbj⟩ := slotOf_mem hso
        rw [hc] at hbj
        exact hx hbj.symm
      simp only [ramVal, hps, hslot, hso]
      rw [hframe j hji]

lemma ram_init_loop_spec {data : List Nat} (hlen : data.length ≤ U32) :
    ∀ fuel (R : ram_t) (base : Nat) (R' : ram_t), ram_inv R →
      base % R.page_size = 0 →
      ram_init_loop data fuel R base = some R' →
      ram_inv R' ∧
      R'.read_listener = R.read_listener ∧
      R'.write_listener = R.write_listener ∧
      R'.page_size = R.page_size ∧
      (∀ pb, pagePresent R pb → pagePresent R' pb) ∧
      (∀ x, ramVal R' x = if base ≤ x ∧ x < data.length
          then data.getD x 0 else ramVal R x) := by
  intro fuel
  induction fuel with
  | zero =>
    intro R base R' _ _ h
    simp [ram_init_loop] at h
  | succ fuel ih =>
    intro R base R' hinv hal h
    rw [ram_init_loop] at h
    by_cases hblen : base < data.length
    · rw [if_pos hblen] at h
      cases hgp : get_ram_page R base with
      | none => rw [hgp] at h; cases h
      | some pr =>
        obtain ⟨Rm, idx⟩ := pr
        rw [hgp] at h
        simp only at h
        have hbu : base < U32 := Nat.lt_of_lt_of_le hblen hlen
        have F := get_ram_page_spec hinv hbu hgp
        obtain ⟨k, hk, hP⟩ := (ram_inv_elim hinv).2.1
        have hPpos : 0 < R.page_size := by
          rw [hP]
          positivity
        cases hd : (Rm.buckets idx).data with
        | none => rw [hd] at h; cases h
        | some d =>
          rw [hd] at h
          have hbal : page_base R.page_size base = base :=
            page_base_of_aligned' hP hk hbu hal
          have hbaseidx : (Rm.buckets idx).base_addr = base := by
            rw [F.base_eq, hbal]
          have hidx : idx < Rm.bucket_count := by
            rw [F.bc]
            exact F.idx_lt
          have hpsm : Rm.page_size = R.page_size := F.ps
          set n : Nat := if data.length - base < Rm.page_size
            then data.length - base else Rm.page_size with hn
          set d' : Nat → Nat := fun o =>
            if o < n then data.getD (base + o) 0 else d o with hd'
          have hnP : n ≤ R.page_size := by
            rw [hn, hpsm]
            split <;> omega
          have hnlen : base + n ≤ data.length := by
            rw [hn, hpsm]
            split <;> omega
          have hR2 : ram_init_loop data fuel (set_page_data Rm idx d')
              (base + Rm.page_size) = some R' := h
          have hbP : base + R.page_size ≤ U32 := by
            have := (@page_base_add_off' R.page_size k base (R.page_size - 1)
              hP hk hbu hal (by omega)).1
            omega
          obtain ⟨hinvM, hslotM, hpresM, hframeM, hbaseM, hdataM⟩ :=
            @set_page_data_facts Rm idx d' F.inv' hidx F.occ
          have hvalM := @set_page_data_ramVal Rm idx d' F.inv' hidx F.occ
          have hmid : ∀ x, ramVal (set_page_data Rm idx d') x
              = if base ≤ x ∧ x < base + n then data.getD x 0
                else ramVal R x := by
            intro x
            rw [hvalM x, hbaseidx, hpsm]
            by_cases hx : page_base R.page_size x = base
            · rw [if_pos hx]
              have hbx : base ≤ x := by
                rw [← hx]
                exact page_base_le _ _
              by_cases hoffn : x - base < n
              · have hd'eq : d' (x - base) = data.getD (base + (x - base)) 0 := by
                  rw [hd']
                  simp only []
                  rw [if_pos hoffn]
                rw [hd'eq, if_pos (by omega)]
                congr 1
                omega
              · have hd'eq : d' (x - base) = d (x - base) := by
                  rw [hd']
                  simp only []
                  rw [if_neg hoffn]
                rw [hd'eq, if_neg (by omega)]
                have hslm : slotOf Rm (page_base Rm.page_size x) = some idx :=
                  slotOf_some_of F.inv' hidx F.occ (by rw [hbaseidx, hpsm, hx])
                have hrm : ramVal Rm x = d (x - base) := by
                  simp only [ramVal, hslm, hd, hbaseidx]
                rw [← F.val, hrm]
            · rw [if_neg hx, if_neg ?_, F.val]
              rintro ⟨hx1, hx2⟩
              apply hx
              have hoff := @page_base_add_off' R.page_size k base (x - base)
                hP hk hbu hal (by omega)
              have hxx : base + (x - base) = x := by omega
              rw [hxx] at hoff
              exact hoff.2
          have hal2 : (base + Rm.page_size) % (set_page_data Rm idx d').page_size
              = 0 := by
            have hpseq : (set_page_data Rm idx d').page_size = Rm.page_size :=
              rfl
            rw [hpseq, hpsm, Nat.add_mod_right]
            exact hal
          obtain ⟨hinv', hrl', hwl', hps', hpres', hval'⟩ :=
            ih (set_page_data Rm idx d') (base + Rm.page_size) R' hinvM hal2 hR2
          refine ⟨hinv', ?_, ?_, ?_, ?_, ?_⟩
          · rw [hrl']
            show Rm.read_listener = R.read_listener
            exact F.rl
          · rw [hwl']
            show Rm.write_listener = R.write_listener
            exact F.wl
          · rw [hps']
            show Rm.page_size = R.page_size
            exact hpsm
          · intro pb hpb
            exact hpres' pb ((hpresM pb).mpr (F.pres_mono pb hpb))
          · intro x
            rw [hval' x, hmid x, hpsm]
            have hcases : n = data.length - base ∧ data.length - base < R.page_size
                ∨ n = R.page_size ∧ R.page_size ≤ data.length - base := by
              rw [hn, hpsm]
              split <;> omega
            by_cases hx1 : base + R.page_size ≤ x ∧ x < data.length
            · rw [if_pos hx1, if_pos (by omega)]
            · rw [if_neg hx1]
              by_cases hx2 : base ≤ x ∧ x < base + n
              · rw [if_pos hx2, if_pos (by omega)]
              · rw [if_neg hx2, if_neg (by omega)]
    · rw [if_neg hblen] at h
      simp only [Option.some_inj] at h
      subst h
      refine ⟨hinv, rfl, rfl, rfl, fun _ hp => hp, ?_⟩
      intro x
      rw [if_neg (by omega)]

lemma ram_init_some_spec {R R' : ram_t} {data : List Nat}
    (hinv : ram_inv R) (hlen : data.length ≤ U32)
    (h : ram_init R data = some R') :
    ram_inv R' ∧ R'.read_listener = R.read_listener ∧
    R'.write_listener = R.write_listener ∧ R'.page_size = R.page_size ∧
    (∀ pb, pagePresent R pb → pagePresent R' pb) ∧
    (∀ x, ramVal R' x
        = if x < data.length then data.getD x 0 else ramVal R x) := by
  obtain ⟨hinv', hrl, hwl, hps, hpres, hval⟩ :=
    ram_init_loop_spec hlen (data.length + 1) R 0 R' hinv (Nat.zero_mod _) h
  refine ⟨hinv', hrl, hwl, hps, hpres, ?_⟩
  intro x
  rw [hval x]
  simp

lemma run_op_some_spec {R R' : ram_t} {op : ram_op}
    (hinv : ram_inv R) (hwf : ram_op_wf op) (h : run_op R op = some R') :
    ram_inv R' ∧ R'.read_listener = R.read_listener ∧
    R'.write_listener = R.write_listener ∧ R'.page_size = R.page_size ∧
    (∀ pb, pagePresent R pb → pagePresent R' pb) ∧
    (∀ x, ¬ writes_at op x → ramVal R' x = ramVal R x) := by
  cases op with
  | get_op a =>
    simp only [run_op] at h
    cases hg : ram_get R a with
    | none => rw [hg] at h; cases h
    | some t =>
      obtain ⟨v, R1, tr⟩ := t
      rw [hg] at h
      simp only [Option.map_some'] at h
      have hR1 : R1 = R' := Option.some_inj.mp h
      subst hR1
      obtain ⟨_, hinv', hval, hrl, hwl, hps, _, hpres, _, _⟩ :=
        ram_get_some_spec hinv hwf hg
      exact ⟨hinv', hrl, hwl, hps, hpres, fun x _ => by rw [hval]⟩
  | set_op a v =>
    simp only [run_op] at h
    cases hg : ram_set R a v with
    | none => rw [hg] at h; cases h
    | some t =>
      obtain ⟨R1, tr⟩ := t
      rw [hg] at h
      simp only [Option.map_some'] at h
      have hR1 : R1 = R' := Option.some_inj.mp h
      subst hR1
      obtain ⟨hinv', hval, hrl, hwl, hps, _, hpres, _, _⟩ :=
        ram_set_some_spec hinv hwf hg
      refine ⟨hinv', hrl, hwl, hps, hpres, ?_⟩
      intro x hnw
      rw [hval x, if_neg (fun hc => hnw hc.symm)]
  | get_set_op a v =>
    simp only [run_op] at h
    cases hg : ram_get_set R a v with
    | none => rw [hg] at h; cases h
    | some t =>
      obtain ⟨w, R1, tr⟩ := t
      rw [hg] at h
      simp only [Option.map_some'] at h
      have hR1 : R1 = R' := Option.some_inj.mp h
      subst hR1
      obtain ⟨_, hinv', hval, hrl, hwl, hps, _, hpres, _, _⟩ :=
        ram_get_set_some_spec hinv hwf hg
      refine ⟨hinv', hrl, hwl, hps, hpres, ?_⟩
      intro x hnw
      rw [hval x, if_neg (fun hc => hnw hc.symm)]
  | init_op data =>
    simp only [run_op] at h
    obtain ⟨hinv', hrl, hwl, hps, hpres, hval⟩ :=
      ram_init_some_spec hinv hwf h
    refine ⟨hinv', hrl, hwl, hps, hpres, ?_⟩
    intro x hnw
    rw [hval x, if_neg (show ¬ x < data.length from hnw)]

lemma run_ops_some_spec {ops : List ram_op} :
    ∀ {R R' : ram_t}, ram_inv R → (∀ op ∈ ops, ram_op_wf op) →
      run_ops R ops = some R' →
      ram_inv R' ∧ R'.read_listener = R.read_listener ∧
      R'.write_listener = R.write_listener ∧ R'.page_size = R.page_size ∧
      (∀ pb, pagePresent R pb → pagePresent R' pb) ∧
      (∀ x, (∀ op ∈ ops, ¬ writes_at op x) → ramVal R' x = ramVal R x) := by
  induction ops with
  | nil =>
    intro R R' hinv _ h
    simp only [run_ops, Option.some_inj] at h
    subst h
    exact ⟨hinv, rfl, rfl, rfl, fun _ hp => hp, fun _ _ => rfl⟩
  | cons op rest ih =>
    intro R R' hinv hwf h
    rw [run_ops] at h
    cases hop : run_op R op with
    | none => rw [hop] at h; cases h
    | some R1 =>
      rw [hop] at h
      obtain ⟨hinv1, hrl1, hwl1, hps1, hpres1, hval1⟩ :=
        run_op_some_spec hinv (hwf op (by simp)) hop
      obtain ⟨hinv', hrl', hwl', hps', hpres', hval'⟩ :=
        ih hinv1 (fun o ho => hwf o (by simp [ho])) h
      refine ⟨hinv', by rw [hrl', hrl1], by rw [hwl', hwl1],
        by rw [hps', hps1], fun pb hpb => hpres' pb (hpres1 pb hpb), ?_⟩
      intro x hnw
      rw [hval' x (fun o ho => hnw o (by simp [ho])),
        hval1 x (hnw op (by simp))]

/-! ### Listener traces -/

/-- The events the spec predicts for a read at `a`: one per read listener
whose inclusive range contains `a`, in installation order, carrying the
listener's position and `a`. -/
def spec_read_trace (ls : List ram_read_listener_t) (a : Nat) :
    List mem_event :=
  (ls.enum.filter
      (fun p => decide (p.2.addr_low ≤ a ∧ a ≤ p.2.addr_high))).map
    (fun p => mem_event.readEv p.1 a)

/-- The events the spec predicts for a write of `v` at `a`. -/
def spec_write_trace (ls : List ram_write_listener_t) (a v : Nat) :
    List mem_event :=
  (ls.enum.filter
      (fun p => decide (p.2.addr_low ≤ a ∧ a ≤ p.2.addr_high))).map
    (fun p => mem_event.writeEv p.1 a v)

lemma handle_read_loop_enumFrom (a : Nat) :
    ∀ (ls : List ram_read_listener_t) (i : Nat),
      handle_read_loop ls i a
        = ((ls.enumFrom i).filter
            (fun p => decide (p.2.addr_low ≤ a ∧ a ≤ p.2.addr_high))).map
          (fun p => mem_event.readEv p.1 a) := by
  intro ls
  induction ls with
  | nil => intro i; rfl
  | cons l rest ih =>
    intro i
    rw [handle_read_loop]
    simp only [List.enumFrom_cons, List.filter_cons]
    by_cases hcond : a ≥ l.addr_low ∧ a ≤ l.addr_high
    · rw [if_pos hcond]
      have : decide (l.addr_low ≤ a ∧ a ≤ l.addr_high) = true := by
        simp only [decide_eq_true_eq]
        exact hcond
      rw [this]
      simp only [List.map_cons]
      rw [ih (i + 1)]
      rfl
    · rw [if_neg hcond]
      have : decide (l.addr_low ≤ a ∧ a ≤ l.addr_high) = false := by
        simp only [decide_eq_false_iff_not]
        exact hcond
      rw [this]
      simp only [List.nil_append]
      exact ih (i + 1)

lemma handle_read_loop_eq (ls : List ram_read_listener_t) (a : Nat) :
    handle_read_loop ls 0 a = spec_read_trace ls a :=
  handle_read_loop_enumFrom a ls 0

lemma handle_write_loop_enumFrom (a v : Nat) :
    ∀ (ls : List ram_write_listener_t) (i : Nat),
      handle_write_loop ls i a v
        = ((ls.enumFrom i).filter
            (fun p => decide (p.2.addr_low ≤ a ∧ a ≤ p.2.addr_high))).map
          (fun p => mem_event.writeEv p.1 a v) := by
  intro ls
  induction ls with
  | nil => intro i; rfl
  | cons l rest ih =>
    intro i
    rw [handle_write_loop]
    simp only [List.enumFrom_cons, List.filter_cons]
    by_cases hcond : a ≥ l.addr_low ∧ a ≤ l.addr_high
    · rw [if_pos hcond]
      have : decide (l.addr_low ≤ a ∧ a ≤ l.addr_high) = true := by
        simp only [decide_eq_true_eq]
        exact hcond
      rw [this]
      simp only [List.map_cons]
      rw [ih (i + 1)]
      rfl
    · rw [if_neg hcond]
      have : decide (l.addr_low ≤ a ∧ a ≤ l.addr_high) = false := by
        simp only [decide_eq_false_iff_not]
        exact hcond
      rw [this]
      simp only [List.nil_append]
      exact ih (i + 1)

lemma handle_write_loop_eq (ls : List ram_write_listener_t) (a v : Nat) :
    handle_write_loop ls 0 a v = spec_write_trace ls a v :=
  handle_write_loop_enumFrom a v ls 0

/-- A read event for listener `j` appears in the read walk only if listener
`j`'s range contains the address. -/
lemma handle_read_loop_mem {a j aj : Nat} :
    ∀ (ls : List ram_read_listener_t) (s : Nat),
      mem_event.readEv j aj ∈ handle_read_loop ls s a →
      ∃ l, ls.get? (j - s) = some l ∧ s ≤ j ∧ aj = a ∧
        l.addr_low ≤ a ∧ a ≤ l.addr_high := by
  intro ls
  induction ls with
  | nil => intro s h; simp [handle_read_loop] at h
  | cons l rest ih =>
    intro s h
    rw [handle_read_loop] at h
    rw [List.mem_append] at h
    rcases h with h | h
    · by_cases hcond : a ≥ l.addr_low ∧ a ≤ l.addr_high
      · rw [if_pos hcond] at h
        simp only [List.mem_singleton, mem_event.readEv.injEq] at h
        obtain ⟨hj, ha⟩ := h
        subst hj
        refine ⟨l, ?_, Nat.le_refl _, ha, hcond.1, hcond.2⟩
        simp
      · rw [if_neg hcond] at h
        cases h
    · obtain ⟨l', hget, hs, ha, h1, h2⟩ := ih (s + 1) h
      refine ⟨l', ?_, by omega, ha, h1, h2⟩
      have : j - s = (j - (s + 1)) + 1 := by omega
      rw [this]
      simpa using hget

lemma handle_write_loop_mem {a v j aj vj : Nat} :
    ∀ (ls : List ram_write_listener_t) (s : Nat),
      mem_event.writeEv j aj vj ∈ handle_write_loop ls s a v →
      ∃ l, ls.get? (j - s) = some l ∧ s ≤ j ∧ aj = a ∧ vj = v ∧
        l.addr_low ≤ a ∧ a ≤ l.addr_high := by
  intro ls
  induction ls with
  | nil => intro s h; simp [handle_write_loop] at h
  | cons l rest ih =>
    intro s h
    rw [handle_write_loop] at h
    rw [List.mem_append] at h
    rcases h with h | h
    · by_cases hcond : a ≥ l.addr_low ∧ a ≤ l.addr_high
      · rw [if_pos hcond] at h
        simp only [List.mem_singleton, mem_event.writeEv.injEq] at h
        obtain ⟨hj, ha, hv⟩ := h
        subst hj
        refine ⟨l, ?_, Nat.le_refl _, ha, hv, hcond.1, hcond.2⟩
        simp
      · rw [if_neg hcond] at h
        cases h
    · obtain ⟨l', hget, hs, ha, hv, h1, h2⟩ := ih (s + 1) h
      refine ⟨l', ?_, by omega, ha, hv, h1, h2⟩
      have : j - s = (j - (s + 1)) + 1 := by omega
      rw [this]
      simpa using hget

/-- The read walk emits no write events, and conversely. -/
lemma handle_read_loop_no_write {a j aj vj : Nat} :
    ∀ (ls : List ram_read_listener_t) (s : Nat),
      mem_event.writeEv j aj vj ∉ handle_read_loop ls s a := by
  intro ls
  induction ls with
  | nil => intro s h; simp [handle_read_loop] at h
  | cons l rest ih =>
    intro s h
    rw [handle_read_loop, List.mem_append] at h
    rcases h with h | h
    · by_cases hcond : a ≥ l.addr_low ∧ a ≤ l.addr_high
      · rw [if_pos hcond] at h
        simp at h
      · rw [if_neg hcond] at h
        cases h
    · exact ih (s + 1) h

lemma handle_write_loop_no_read {a v j aj : Nat} :
    ∀ (ls : List ram_write_listener_t) (s : Nat),
      mem_event.readEv j aj ∉ handle_write_loop ls s a v := by
  intro ls
  induction ls with
  | nil => intro s h; simp [handle_write_loop] at h
  | cons l rest ih =>
    intro s h
    rw [handle_write_loop, List.mem_append] at h
    rcases h with h | h
    · by_cases hcond : a ≥ l.addr_low ∧ a ≤ l.addr_high
      · rw [if_pos hcond] at h
        simp at h
      · rw [if_neg hcond] at h
        cases h
    · exact ih (s + 1) h

/-! ### The freshly created RAM satisfies the invariant -/

lemma ht_find_empty64 : ht_find (fun _ => empty_bucket) 64 0 = some 0 := by
  decide

lemma ram_create_buckets (P : Nat) :
    (ram_create P).buckets
      = setBucket (fun _ => empty_bucket) 0 (init_ram_page 0) := by
  simp [ram_create, INITIAL_RAM_HT_SIZE, ht_find_empty64]

lemma ram_create_find0 (P : Nat) :
    ht_find (ram_create P).buckets (ram_create P).bucket_count 0 = some 0 := by
  rw [ram_create_buckets]
  show ht_find (setBucket (fun _ => empty_bucket) 0 (init_ram_page 0)) 64 0
    = some 0
  decide

lemma ram_create_occB (P i : Nat) :
    occB (ram_create P) i = decide (i = 0) := by
  rw [occB, ram_create_buckets]
  by_cases hi : i = 0
  · subst hi
    simp [setBucket, init_ram_page]
  · simp [setBucket, hi, empty_bucket]

lemma ram_inv_create {P k : Nat} (hP : P = 2 ^ k) (hk : k < 33) :
    ram_inv (ram_create P) := by
  have hbc : (ram_create P).bucket_count = 64 := rfl
  have hocc0 : occB (ram_create P) 0 = true := by
    rw [ram_create_occB]
    simp
  refine ⟨by rw [hbc]; omega, ⟨k, hk, hP⟩, ?_, ?_, ?_, ?_⟩
  · show (1 : Nat) = occCount (ram_create P)
    unfold occCount
    rw [hbc]
    have : (Finset.range 64).filter (fun i => occB (ram_create P) i = true)
        = {0} := by
      ext j
      simp only [Finset.mem_filter, Finset.mem_range, Finset.mem_singleton,
        ram_create_occB, decide_eq_true_eq]
      constructor
      · rintro ⟨_, hj⟩
        exact hj
      · rintro rfl
        exact ⟨by omega, rfl⟩
    rw [this]
    rfl
  · intro i hi hocci
    rw [ram_create_occB, decide_eq_true_eq] at hocci
    subst hocci
    have hb0 : ((ram_create P).buckets 0).base_addr = 0 := by
      rw [ram_create_buckets]
      simp [setBucket, init_ram_page]
    rw [hb0]
    refine ⟨by simp [U32], Nat.zero_mod _, ?_⟩
    have := ram_create_find0 P
    rwa [hbc] at this
  · intro i hi hocci
    rw [ram_create_occB, decide_eq_false_iff_not] at hocci
    rw [ram_create_buckets]
    simp [setBucket, hocci]
  · refine ⟨0, by rw [hbc]; omega, hocc0, ?_⟩
    rw [ram_create_buckets]
    simp [setBucket, init_ram_page]

instance writes_at_dec (op : ram_op) (a : Nat) : Decidable (writes_at op a) :=
  match op with
  | ram_op.get_op _ => isFalse (fun h => h)
  | ram_op.set_op b _ => Nat.decEq b a
  | ram_op.get_set_op b _ => Nat.decEq b a
  | ram_op.init_op data => Nat.decLt a data.length

instance ram_op_wf_dec (op : ram_op) : Decidable (ram_op_wf op) :=
  match op with
  | ram_op.get_op a => Nat.decLt a U32
  | ram_op.set_op a _ => Nat.decLt a U32
  | ram_op.get_set_op a _ => Nat.decLt a U32
  | ram_op.init_op data => Nat.decLe data.length U32

/-- Whatever the state, a successful `ram_get` fires exactly the walk of the
initial read-listener list (the lookup never touches listeners). -/
lemma ram_get_trace_eq {R R' : ram_t} {a w : Nat} {tr : List mem_event}
    (h : ram_get R a = some (w, R', tr)) :
    tr = handle_read_loop R.read_listener 0 a := by
  simp only [ram_get] at h
  cases hgp : get_ram_page R a with
  | none => rw [hgp] at h; cases h
  | some pr =>
    obtain ⟨Rm, idx⟩ := pr
    rw [hgp] at h
    simp only at h
    cases hd : (Rm.buckets idx).data with
    | none => rw [hd] at h; cases h
    | some d =>
      rw [hd] at h
      simp only [Option.some_inj, Prod.mk.injEq] at h
      obtain ⟨_, _, htr⟩ := h
      rw [← htr, (get_ram_page_components hgp).1]

lemma ram_set_trace_eq {R R' : ram_t} {a v : Nat} {tr : List mem_event}
    (h : ram_set R a v = some (R', tr)) :
    tr = handle_write_loop R.write_listener 0 a v := by
  simp only [ram_set] at h
  cases hgp : get_ram_page R a with
  | none => rw [hgp] at h; cases h
  | some pr =>
    obtain ⟨Rm, idx⟩ := pr
    rw [hgp] at h
    simp only at h
    cases hd : (Rm.buckets idx).data with
    | none => rw [hd] at h; cases h
    | some d =>
      rw [hd] at h
      simp only [Option.some_inj, Prod.mk.injEq] at h
      obtain ⟨_, htr⟩ := h
      rw [← htr, (get_ram_page_components hgp).2.1]

lemma ram_get_set_trace_eq {R R' : ram_t} {a v w : Nat} {tr : List mem_event}
    (h : ram_get_set R a v = some (w, R', tr)) :
    tr = handle_read_loop R.read_listener 0 a
      ++ handle_write_loop R.write_listener 0 a v := by
  simp only [ram_get_set] at h
  cases hgp : get_ram_page R a with
  | none => rw [hgp] at h; cases h
  | some pr =>
    obtain ⟨Rm, idx⟩ := pr
    rw [hgp] at h
    simp only at h
    cases hd : (Rm.buckets idx).data with
    | none => rw [hd] at h; cases h
    | some d =>
      rw [hd] at h
      simp only [Option.some_inj, Prod.mk.injEq] at h
      obtain ⟨_, _, htr⟩ := h
      rw [← htr, (get_ram_page_components hgp).1,
        (get_ram_page_components hgp).2.1]

/-- Every address of a freshly created RAM reads as zero. -/
lemma ramVal_create (P x : Nat) : ramVal (ram_create P) x = 0 := by
  unfold ramVal
  cases hso : slotOf (ram_create P) (page_base (ram_create P).page_size x) with
  | none => rfl
  | some j =>
    obtain ⟨hj, hoccj, _⟩ := slotOf_mem hso
    rw [ram_create_occB, decide_eq_true_eq] at hoccj
    subst hoccj
    rw [ram_create_buckets]
    simp [setBucket, init_ram_page]

/-! ### Concrete states used by claim theorems and witnesses -/

set_option maxRecDepth 1000000

/-- One write in each of the pages with bases `4, 8, ..., 252` (page size 4
words): together with the page at base 0 pre-created by `ram_create`, these
63 writes fill all 64 buckets of the initial hash table. -/
def fill_ops : List ram_op :=
  (List.range 63).map (fun i => ram_op.set_op (4 * (i + 1)) 1)

/-- The reachable state with 64 allocated pages in 64 buckets. -/
def full_ram : ram_t := (run_ops (ram_create 4) fill_ops).getD (ram_create 4)

/-- 62 writes filling pages `4, 8, ..., 248`: with page 0 that is 63 pages,
one short of a full table. -/
def c3_ops : List ram_op :=
  (List.range 62).map (fun i => ram_op.set_op (4 * (i + 1)) 1)

def c3_R : ram_t := (run_ops (ram_create 4) c3_ops).getD (ram_create 4)

def c3_Rafter : ram_t := ((ram_set c3_R 252 1).getD (c3_R, [])).1

def c3w_R : ram_t := ((ram_set (ram_create 4) 0 9).getD (ram_create 4, [])).1

def c2_ops : List ram_op := [ram_op.set_op 9 3, ram_op.get_op 0]

def c2_R1 : ram_t := ((ram_set (ram_create 4) 5 7).getD (ram_create 4, [])).1

def c2_R2 : ram_t := (run_ops c2_R1 c2_ops).getD c2_R1

def c4_R : ram_t := ((ram_get_set (ram_create 4) 3 5).getD (0, ram_create 4, [])).2.1

def c5_ops : List ram_op := [ram_op.set_op 8 3, ram_op.get_set_op 12 9]

def c5_R : ram_t := (run_ops (ram_create 4) c5_ops).getD (ram_create 4)

/-- The RAM of the repository's listener tests: three read listeners over
`[156, 89965]`, `[9532, 89965]`, `[50, 100]`, installed in that order. -/
def c6_R : ram_t :=
  ram_install_read_listener
    (ram_install_read_listener
      (ram_install_read_listener (ram_create 4) 156 89965) 9532 89965)
    50 100

def c6_R2 : ram_t := ((ram_get c6_R 67).getD (0, c6_R, [])).2.1

def c6_tr : List mem_event := ((ram_get c6_R 67).getD (0, c6_R, [])).2.2

/-! ### Claim theorems -/

/-- C1 (code bug): the spec says that when `get_or_create` must insert a new
page while `page_count == bucket_count`, the store doubles the bucket count,
rehashes, and recomputes the insertion index before storing.  In the code
the initial `ht_find` runs *before* the grow check, so in the reachable
state where 64 pages fill the 64 buckets (obtained here with page size 4 by
writing one word in each of 63 fresh pages), an access to a 65th distinct
page makes the probe loop cycle through the full table forever — for every
fuel — and the grow/rehash block is never executed; the model returns
`none` (divergence) for both `ram_get` and `ram_set` on the new page. -/
theorem C1_full_table_insert_diverges_instead_of_growing :
    (run_ops (ram_create 4) fill_ops).isSome = true ∧
    full_ram.page_count = 64 ∧
    full_ram.bucket_count = 64 ∧
    (ram_set full_ram 256 7).isNone = true ∧
    (ram_get full_ram 256).isNone = true ∧
    (∀ fuel, ht_find_loop full_ram.buckets 64 256 fuel
        (hash 256 &&& 63) = none) := by
  refine ⟨by decide, by decide, by decide, by decide, by decide, ?_⟩
  have hfull' : ∀ i, i < 64 → ((full_ram.buckets i).data).isSome = true ∧
      (full_ram.buckets i).base_addr ≠ 256 := by decide
  have hfull : ∀ i, i < 64 → (full_ram.buckets i).data ≠ none ∧
      (full_ram.buckets i).base_addr ≠ 256 := by
    intro i hi
    obtain ⟨h1, h2⟩ := hfull' i hi
    exact ⟨Option.isSome_iff_ne_none.mp h1, h2⟩
  intro fuel
  exact ht_find_loop_full_none (by omega) hfull fuel _ (by decide)

/-- C2: write persistence.  After `R.set(a, v)` succeeds, any sequence of
subsequent operations that terminate and do not store at `a` (in particular
all get/set/get_set operations on addresses other than `a`) leaves the word
at `a` intact: `R.get(a)` terminates and returns `v` (firing the read
listeners of the final state). -/
theorem C2_write_persistence {R R₁ R₂ : ram_t} {a v : Nat}
    {tr : List mem_event} {ops : List ram_op}
    (hinv : ram_inv R) (ha : a < U32)
    (hset : ram_set R a v = some (R₁, tr))
    (hwf : ∀ op ∈ ops, ram_op_wf op)
    (hnw : ∀ op ∈ ops, ¬ writes_at op a)
    (hrun : run_ops R₁ ops = some R₂) :
    ram_get R₂ a = some (v, R₂, handle_read_loop R₂.read_listener 0 a) := by
  obtain ⟨hinv1, hupd1, _, _, hps1, _, hmono1, hpres1, _⟩ :=
    ram_set_some_spec hinv ha hset
  obtain ⟨hinv2, _, _, hps2, hpres2, hval2⟩ :=
    run_ops_some_spec hinv1 hwf hrun
  have hv2 : ramVal R₂ a = v := by
    rw [hval2 a hnw, hupd1 a, if_pos rfl]
  have hpr : pagePresent R₂ (page_base R₂.page_size a) := by
    rw [hps2, hps1]
    exact hpres2 _ hpres1
  have hget := ram_get_of_present hinv2 hpr
  rw [hv2] at hget
  exact hget

/-- Witness for C2 at a concrete input: page size 4, write 7 at address 5,
then a write at 9 and a read at 0; the final read at 5 returns 7. -/
theorem C2_write_persistence_witness :
    ram_get c2_R2 5 = some (7, c2_R2, []) := by
  have hinv : ram_inv (ram_create 4) := ram_inv_create (k := 2) rfl (by omega)
  have hset : ram_set (ram_create 4) 5 7 = some (c2_R1, []) := rfl
  have hrun : run_ops c2_R1 c2_ops = some c2_R2 := rfl
  have h := @C2_write_persistence (ram_create 4) c2_R1 c2_R2 5 7 [] c2_ops
    hinv (by decide) hset (by decide) (by decide) hrun
  exact h

/-- C3 counterexample: the claim as stated is false.  In the reachable
state `c3_R` (63 pages allocated, page size 4), `R.get(256)` returns 0;
after `R.set(252, 1)` — which allocates a 64th page and fills the table —
`R.get(256)` no longer returns any value at all: the probe loop diverges.
So a write to `a = 252` does change what `R.get(b)` returns for `b = 256`
(from `0` to nontermination), and no hash-table grow occurs. -/
theorem C3_counterexample :
    (run_ops (ram_create 4) c3_ops).isSome = true ∧
    (ram_get c3_R 256).map (fun t => t.1) = some 0 ∧
    ram_set c3_R 252 1 = some (c3_Rafter, []) ∧
    (ram_get c3_Rafter 256).isNone = true := by
  exact ⟨by decide, by decide, rfl, by decide⟩

/-- C3 (amended): a successful `R.set(a, v)` never changes the abstract
word at any other address `b`, and never changes the value a terminating
`R.get(b)` returns: if the subsequent `R.get(b)` returns a value it is the
old one, and whenever `b`'s page already exists the get does terminate with
the old value.  (The original claim fails only in that `R.get(b)` may stop
terminating when the write fills the hash table — see the counterexample —
because the grow the spec describes never executes.) -/
theorem C3_non_interference_amended {R R' : ram_t} {a b v : Nat}
    {tr : List mem_event} (hinv : ram_inv R) (ha : a < U32) (hb : b < U32)
    (hab : a ≠ b) (hset : ram_set R a v = some (R', tr)) :
    ramVal R' b = ramVal R b ∧
    (∀ w R₂ tr₂, ram_get R' b = some (w, R₂, tr₂) → w = ramVal R b) ∧
    (pagePresent R (page_base R.page_size b) →
      ram_get R' b = some (ramVal R b, R',
        handle_read_loop R'.read_listener 0 b)) := by
  obtain ⟨hinv', hupd, _, _, hps', _, hpres, _, _⟩ :=
    ram_set_some_spec hinv ha hset
  have hvb : ramVal R' b = ramVal R b := by
    rw [hupd b, if_neg (fun hc => hab hc.symm)]
  refine ⟨hvb, ?_, ?_⟩
  · intro w R₂ tr₂ hget
    obtain ⟨hw, _⟩ := ram_get_some_spec hinv' hb hget
    rw [hw, hvb]
  · intro hp
    have hp' : pagePresent R' (page_base R'.page_size b) := by
      rw [hps']
      exact hpres _ hp
    have hget := ram_get_of_present hinv' hp'
    rw [hvb] at hget
    exact hget

/-- Witness for the amended C3: writing 9 at address 0 does not change the
word read at address 1. -/
theorem C3_non_interference_witness :
    ramVal c3w_R 1 = ramVal (ram_create 4) 1 := by
  have hset : ram_set (ram_create 4) 0 9 = some (c3w_R, []) := rfl
  exact (@C3_non_interference_amended (ram_create 4) c3w_R 0 1 9 []
    (ram_inv_create (k := 2) rfl (by omega)) (by decide) (by decide)
    (by decide) hset).1

/-- C4: `ram_get_set` is observationally equivalent to `ram_get` followed
by `ram_set` — equal return value (the prior word), equal final state, and
the concatenated listener events, the matching read listeners (fired before
the word is mutated) strictly preceding the matching write listeners (fired
after, with arguments `(a, v)`); divergence is also preserved.  Moreover a
successful `ram_get_set` returns the prior abstract word and leaves `v` at
`a`. -/
theorem C4_get_set_equivalence {R : ram_t} {a v : Nat}
    (hinv : ram_inv R) (ha : a < U32) :
    ram_get_set R a v =
      (match ram_get R a with
       | none => none
       | some (v0, R1, tr1) =>
         match ram_set R1 a v with
         | none => none
         | some (R2, tr2) => some (v0, R2, tr1 ++ tr2)) ∧
    (∀ w R' tr, ram_get_set R a v = some (w, R', tr) →
      w = ramVal R a ∧ ramVal R' a = v ∧
      tr = handle_read_loop R.read_listener 0 a
        ++ handle_write_loop R.write_listener 0 a v) := by
  refine ⟨ram_get_set_decomp hinv ha, ?_⟩
  intro w R' tr h
  obtain ⟨hw, _, hupd, _, _, _, _, _, _, htr⟩ := ram_get_set_some_spec hinv ha h
  exact ⟨hw, by rw [hupd a, if_pos rfl], htr⟩

/-- Witness for C4: `get_set` of 5 at address 3 on a fresh RAM stores 5. -/
theorem C4_get_set_witness : ramVal c4_R 3 = 5 := by
  have hgs : ram_get_set (ram_create 4) 3 5 = some (0, c4_R, []) := rfl
  exact ((@C4_get_set_equivalence (ram_create 4) 3 5
    (ram_inv_create (k := 2) rfl (by omega)) (by decide)).2 0 c4_R []
    hgs).2.1

/-- C5: sparse zero initialization.  In every reachable state obtained from
`ram_create` by operations none of which stored at `a` (no `set`/`get_set`
at `a` and no `init` covering `a`), the abstract word at `a` is 0 and any
terminating `R.get(a)` returns 0; freshly created pages are entirely
zero-filled, and every address of the RAM `ram_create` returns (whose page
at base 0 is pre-allocated) reads as zero. -/
theorem C5_sparse_zero_init {k : Nat} {ops : List ram_op} {R : ram_t}
    {a : Nat} (hk : k < 33) (ha : a < U32)
    (hrun : run_ops (ram_create (2 ^ k)) ops = some R)
    (hwf : ∀ op ∈ ops, ram_op_wf op)
    (hnw : ∀ op ∈ ops, ¬ writes_at op a) :
    ramVal R a = 0 ∧
    (∀ v R' tr, ram_get R a = some (v, R', tr) → v = 0) ∧
    (∀ base, init_ram_page base = ⟨base, some (fun _ => 0)⟩) ∧
    (∀ x, ramVal (ram_create (2 ^ k)) x = 0) := by
  have hinv0 := ram_inv_create (P := 2 ^ k) rfl hk
  obtain ⟨hinvR, _, _, _, _, hval⟩ := run_ops_some_spec hinv0 hwf hrun
  have h0 : ramVal R a = 0 := by
    rw [hval a hnw, ramVal_create]
  refine ⟨h0, ?_, fun _ => rfl, fun x => ramVal_create _ x⟩
  intro v R' tr hget
  obtain ⟨hv, _⟩ := ram_get_some_spec hinvR ha hget
  rw [hv, h0]

/-- Witness for C5: after writes at 8 and 12 on a fresh RAM of page size 4,
address 5 still reads as zero. -/
theorem C5_sparse_zero_witness : ramVal c5_R 5 = 0 := by
  have hrun : run_ops (ram_create (2 ^ 2)) c5_ops = some c5_R := rfl
  exact (@C5_sparse_zero_init 2 c5_ops c5_R 5 (by omega) (by decide) hrun
    (by decide) (by decide)).1

/-- C6: listener firing and order.  A terminating `ram_get` at `a` fires
exactly the read listeners whose inclusive range `[lo, hi]` contains `a`
(`lo ≤ a ≤ hi`), each exactly once with argument `a`, in installation
order; `ram_set` and `ram_get_set` fire exactly the matching write
listeners with arguments `(a, v)`, in installation order, and `ram_get_set`
fires its matching read listeners before its matching write listeners. -/
theorem C6_listener_firing_order (R : ram_t) (a v : Nat) :
    (∀ w R' tr, ram_get R a = some (w, R', tr) →
      tr = spec_read_trace R.read_listener a) ∧
    (∀ R' tr, ram_set R a v = some (R', tr) →
      tr = spec_write_trace R.write_listener a v) ∧
    (∀ w R' tr, ram_get_set R a v = some (w, R', tr) →
      tr = spec_read_trace R.read_listener a
        ++ spec_write_trace R.write_listener a v) := by
  refine ⟨?_, ?_, ?_⟩
  · intro w R' tr h
    rw [ram_get_trace_eq h, handle_read_loop_eq]
  · intro R' tr h
    rw [ram_set_trace_eq h, handle_write_loop_eq]
  · intro w R' tr h
    rw [ram_get_set_trace_eq h, handle_read_loop_eq, handle_write_loop_eq]

/-- Witness for C6, the repository's own overlap scenario: with read
listeners over `[156, 89965]`, `[9532, 89965]`, `[50, 100]`, a read at 67
fires exactly the third listener, with argument 67. -/
theorem C6_listener_firing_witness : c6_tr = [mem_event.readEv 2 67] := by
  have hget : ram_get c6_R 67 = some (0, c6_R2, c6_tr) := rfl
  exact (((C6_listener_firing_order c6_R 67 0).1) 0 c6_R2 c6_tr hget).trans
    (by decide)

/-- C7 counterexample: the claim requires the byte length to be a *nonzero*
multiple of 4, but `read_file` only checks `file_size % 4 != 0`, so a
zero-byte file is accepted (when its zero-sized allocation succeeds):
loading it succeeds and yields an empty memory instead of the claimed fatal
error. -/
theorem C7_counterexample :
    read_file (some []) true = some [] ∧
    ram_from_file "boot.bin" (some []) true 4
      = some (Except.ok (ram_create 4)) ∧
    rom_from_file "boot.bin" (some []) true = Except.ok (rom_create []) := by
  exact ⟨rfl, rfl, rfl⟩

/-- C7 (amended): `ram_from_file` / `rom_from_file` succeed exactly when
the file can be opened, its byte length is a multiple of 4 (*including*
zero, which yields an empty memory), and the allocation succeeds; on any
failure they are fatal with the diagnostic
`error: failed to read file '<path>'` on the error stream; on success word
`i` of the file becomes word `i` of the memory (ROM index `i`, RAM address
`i`). -/
theorem C7_file_load_amended (filename : String)
    (contents : Option (List Nat)) (allocOk : Bool) (P k : Nat)
    (hP : P = 2 ^ k) (hk : k < 33) :
    ((read_file contents allocOk).isSome = true ↔
      (∃ bytes, contents = some bytes ∧ bytes.length % 4 = 0
        ∧ allocOk = true)) ∧
    (read_file contents allocOk = none →
      ram_from_file filename contents allocOk P
          = some (Except.error (file_error_msg filename)) ∧
      rom_from_file filename contents allocOk
          = Except.error (file_error_msg filename)) ∧
    (file_error_msg filename
        = "error: failed to read file '" ++ filename ++ "'" ++ "\n") ∧
    (∀ bytes words, contents = some bytes →
      read_file contents allocOk = some words →
      words = bytesToWords bytes ∧
      rom_from_file filename contents allocOk
          = Except.ok (rom_create words) ∧
      (∀ i, rom_get (rom_create words) i = words.get? i) ∧
      (∀ R, ram_from_file filename contents allocOk P
            = some (Except.ok R) →
        words.length ≤ U32 →
        ∀ i, i < words.length → ramVal R i = words.getD i 0)) := by
  refine ⟨?_, ?_, rfl, ?_⟩
  · cases contents with
    | none => simp [read_file]
    | some bytes =>
      cases allocOk with
      | false => simp [read_file]
      | true =>
        by_cases h4 : bytes.length % 4 = 0
        · simp [read_file, h4]
        · simp [read_file, h4]
  · intro hnone
    unfold ram_from_file rom_from_file
    rw [hnone]
    exact ⟨rfl, rfl⟩
  · intro bytes words hc hwords
    subst hc
    have hwe : words = bytesToWords bytes := by
      simp only [read_file] at hwords
      by_cases h4 : bytes.length % 4 = 0
      · rw [if_neg (by simp [h4])] at hwords
        cases allocOk with
        | false => simp at hwords
        | true =>
          rw [if_neg (by simp)] at hwords
          exact (Option.some_inj.mp hwords).symm
      · rw [if_pos (by simp [h4])] at hwords
        cases hwords
    refine ⟨hwe, ?_, fun i => rfl, ?_⟩
    · unfold rom_from_file
      rw [hwords]
    · intro R hram hlen i hi
      unfold ram_from_file at hram
      rw [hwords] at hram
      simp only at hram
      cases hri : ram_init (ram_create P) words with
      | none => rw [hri] at hram; cases hram
      | some R₀ =>
        rw [hri] at hram
        simp only [Option.some_inj, Except.ok.injEq] at hram
        subst hram
        obtain ⟨_, _, _, _, _, hval⟩ :=
          ram_init_some_spec (ram_inv_create hP hk) hlen hri
        rw [hval i, if_pos hi]

/-- Witness for the amended C7: a four-byte file holding the word 1 loads
successfully. -/
theorem C7_file_load_witness :
    (read_file (some [1, 0, 0, 0]) true).isSome = true :=
  ((C7_file_load_amended "boot.bin" (some [1, 0, 0, 0]) true 4 2 rfl
      (by omega)).1).mpr ⟨[1, 0, 0, 0], rfl, by decide, rfl⟩

/-- C8 (code bug): the spec maps color index 0 to SGR 39/49, indices 1..8
to 30-37/40-47 and indices 9..16 to the bright codes 90-97/100-107, with
17..31 asserting.  The code's chain reads `else if (color <= 9)`, an
off-by-one: index 9 falls into the "normal" branch and is rendered as SGR
38 (foreground) / 48 (background) — reserved extended-color introducers,
not colors — while 10..16 map to 91..97/101..107, so 90 and 100 are never
emitted.  The bright-branch formula `90 + (color - 9)` and the `1..8 →
30..37` mapping confirm the intent the spec states. -/
theorem C8_color_index_off_by_one :
    fg_sgr_code 0 = some 39 ∧ fg_sgr_code 1 = some 30 ∧
    fg_sgr_code 8 = some 37 ∧ fg_sgr_code 9 = some 38 ∧
    fg_sgr_code 10 = some 91 ∧ fg_sgr_code 16 = some 97 ∧
    fg_sgr_code 17 = none ∧ fg_sgr_code 31 = none ∧
    bg_sgr_code 0 = some 49 ∧ bg_sgr_code 8 = some 47 ∧
    bg_sgr_code 9 = some 48 ∧ bg_sgr_code 10 = some 101 ∧
    bg_sgr_code 16 = some 107 ∧ bg_sgr_code 17 = none ∧
    screen_put_character 0 0 2369
      = some ("\x1b[s" ++ "\x1b[1;1H" ++ "\x1b[0;38;49m" ++ "A"
          ++ "\x1b[0m" ++ "\x1b[u") := by
  decide

/-- C9 counterexample: the claim says that for an unstyled character both
SGR emissions are skipped, so the output would be save + position + byte +
restore only; the code in fact always emits the `ESC [ 0 m` attribute
reset after the character byte (it sits outside the style-skip branch). -/
theorem C9_counterexample :
    screen_put_character 0 0 65
        = some ("\x1b[s" ++ "\x1b[1;1H" ++ "A" ++ "\x1b[0m" ++ "\x1b[u") ∧
    screen_put_character 0 0 65
        ≠ some ("\x1b[s" ++ "\x1b[1;1H" ++ "A" ++ "\x1b[u") := by
  decide

/-- C9 (amended): for a styled character word with no style or color bit
set (no bit above the 7-bit ASCII code), `screen_put_character` emits the
cursor save, the positioning sequence, the bare ASCII byte, the attribute
reset `ESC [ 0 m`, and the cursor restore — only the SGR *style command* is
skipped; the reset is emitted unconditionally. -/
theorem C9_fast_path_amended (x y w : Nat) (hx : x < SCREEN_WIDTH)
    (hy : y < SCREEN_HEIGHT) (hw : w &&& 0xffffff80 = 0) :
    screen_put_character x y w
      = some ("\x1b[s" ++ "\x1b[" ++ toString (y + 1) ++ ";"
          ++ toString (x + 1) ++ "H"
          ++ String.singleton (Char.ofNat (w &&& 0x7f))
          ++ "\x1b[0m" ++ "\x1b[u") := by
  have hx' : x < 64 := hx
  have hy' : y < 16 := hy
  have hcoord : ¬ (SCREEN_WIDTH ≤ x ∨ SCREEN_HEIGHT ≤ y) := by
    push_neg
    exact ⟨hx, hy⟩
  rw [screen_put_character, if_neg hcoord]
  simp only []
  rw [if_pos hw]

/-- Witness for the amended C9: the bare character `A` at column 3, row 6. -/
theorem C9_fast_path_witness :
    screen_put_character 2 5 65
      = some ("\x1b[s" ++ "\x1b[" ++ toString (5 + 1) ++ ";"
          ++ toString (2 + 1) ++ "H"
          ++ String.singleton (Char.ofNat (65 &&& 0x7f))
          ++ "\x1b[0m" ++ "\x1b[u") :=
  C9_fast_path_amended 2 5 65 (by decide) (by decide) (by decide)

/-- C10: installing a listener with `lo > hi` succeeds — the entry is
appended to the tail of the corresponding list — and such a listener never
fires: no terminating `get`, `set` or `get_set`, on any state in which it
is installed at any position, produces an invocation event for it, since no
address satisfies `lo ≤ a ≤ hi`. -/
theorem C10_empty_range_listener {lo hi : Nat} (hlohi : hi < lo) :
    (∀ R : ram_t, ram_install_read_listener R lo hi
        = { R with read_listener := R.read_listener ++ [⟨lo, hi⟩] }) ∧
    (∀ R : ram_t, ram_install_write_listener R lo hi
        = { R with write_listener := R.write_listener ++ [⟨lo, hi⟩] }) ∧
    (∀ (S : ram_t) (i a : Nat), S.read_listener.get? i = some ⟨lo, hi⟩ →
      (∀ w S' tr, ram_get S a = some (w, S', tr) →
        mem_event.readEv i a ∉ tr) ∧
      (∀ v w S' tr, ram_get_set S a v = some (w, S', tr) →
        mem_event.readEv i a ∉ tr)) ∧
    (∀ (S : ram_t) (i a v : Nat), S.write_listener.get? i = some ⟨lo, hi⟩ →
      (∀ S' tr, ram_set S a v = some (S', tr) →
        mem_event.writeEv i a v ∉ tr) ∧
      (∀ w S' tr, ram_get_set S a v = some (w, S', tr) →
        mem_event.writeEv i a v ∉ tr)) := by
  refine ⟨fun R => rfl, fun R => rfl, ?_, ?_⟩
  · intro S i a hgetl
    have key : mem_event.readEv i a ∉ handle_read_loop S.read_listener 0 a := by
      intro hmem
      obtain ⟨l, hl, _, _, h1, h2⟩ := handle_read_loop_mem _ 0 hmem
      rw [Nat.sub_zero] at hl
      have hle : l = ⟨lo, hi⟩ := Option.some_inj.mp (hl.symm.trans hgetl)
      subst hle
      simp only at h1 h2
      omega
    constructor
    · intro w S' tr h hmem
      rw [ram_get_trace_eq h] at hmem
      exact key hmem
    · intro v w S' tr h hmem
      rw [ram_get_set_trace_eq h, List.mem_append] at hmem
      rcases hmem with hm | hm
      · exact key hm
      · exact handle_write_loop_no_read _ 0 hm
  · intro S i a v hgetl
    have key : mem_event.writeEv i a v
        ∉ handle_write_loop S.write_listener 0 a v := by
      intro hmem
      obtain ⟨l, hl, _, _, _, h1, h2⟩ := handle_write_loop_mem _ 0 hmem
      rw [Nat.sub_zero] at hl
      have hle : l = ⟨lo, hi⟩ := Option.some_inj.mp (hl.symm.trans hgetl)
      subst hle
      simp only at h1 h2
      omega
    constructor
    · intro S' tr h hmem
      rw [ram_set_trace_eq h] at hmem
      exact key hmem
    · intro w S' tr h hmem
      rw [ram_get_set_trace_eq h, List.mem_append] at hmem
      rcases hmem with hm | hm
      · exact handle_read_loop_no_write _ 0 hm
      · exact key hm

/-- Witness for C10: installing a read listener over the empty range
`[5, 3]` appends it to the list. -/
theorem C10_empty_range_witness :
    ram_install_read_listener (ram_create 4) 5 3
      = { ram_create 4 with
            read_listener := (ram_create 4).read_listener ++ [⟨5, 3⟩] } :=
  (C10_empty_range_listener (by omega)).1 (ram_create 4)

end SparseMemory
